import Mathlib

/-
Verification of the DataSmartPLS 4.0 core engines against their
natural-language specification.

The development shallowly embeds the Python sources:
  core/config.py       -- configuration dataclasses
  core/structural.py   -- structural latent simulation (Kahn topological sort)
  core/generator.py    -- measurement / indicator engine and pipeline
  core/bias.py         -- response-bias transforms
  core/diagnostics.py  -- psychometric diagnostics

Modelling conventions:
  * float64 values are modelled as rationals (ℚ).  No claim settled here
    depends on floating-point rounding.
  * `numpy.random.Generator` is modelled as a stream of rationals plus a
    cursor.  Each generator method (`normal`, `uniform`, `integers`, ...)
    deterministically consumes values from the stream and applies a
    method-specific pointwise transform; the transforms themselves (and the
    float `sqrt`/`exp` routines) are parameters of the embedding, collected
    in `NumModel`, because their exact values are irrelevant to every claim.
  * `np.random.default_rng(seed)` is a fixed deterministic function of the
    seed; it is modelled by a parameter `seedStream : Int → Strm`.
    `np.random.default_rng()` (no seed) reads operating-system entropy; it
    is modelled by an explicit entropy-stream argument threaded to exactly
    the call sites that invoke the unseeded constructor.
  * Python `None`/`NaN` cells are modelled by `Option`.
  * fallible Python code (raise) is modelled with `Except String`.
-/

/-! ## Arithmetic helpers (float operations used by the sources) -/

/-- `np.clip(x, lo, hi)` for scalars (`lo ≤ hi` in every use below). -/
def clipQ (x lo hi : ℚ) : ℚ := min hi (max lo x)

/-- Python `int(q)`: truncation toward zero. -/
def truncQ (q : ℚ) : Int := if q < 0 then -⌊-q⌋ else ⌊q⌋

/-- `np.ndarray.mean()` of a vector. -/
def meanQ (xs : List ℚ) : ℚ := xs.sum / (xs.length : ℚ)

/-- `np.ndarray.std()` squared, i.e. the population variance (ddof = 0). -/
def popVar (xs : List ℚ) : ℚ :=
  meanQ (xs.map (fun x => (x - meanQ xs) ^ 2))

/-- `numpy`/`pandas` `.round()`: round half to even (banker's rounding). -/
def roundHalfEven (q : ℚ) : ℚ :=
  let f : Int := ⌊q⌋
  let r : ℚ := q - (f : ℚ)
  if r < 1 / 2 then (f : ℚ)
  else if 1 / 2 < r then (f : ℚ) + 1
  else if f % 2 = 0 then (f : ℚ) else (f : ℚ) + 1

/-! ## Random-generator model -/

/-- The value stream backing one `numpy.random.Generator`. -/
abbrev Strm : Type := Nat → ℚ

/-- A generator is a stream plus a cursor; every draw advances the cursor,
which models the sequential consumption of the underlying bit stream. -/
structure RNG where
  strm : Strm
  pos : Nat

/-- Consume `n` raw values from the generator. -/
def RNG.draw (r : RNG) (n : Nat) : List ℚ × RNG :=
  ((List.range n).map (fun i => r.strm (r.pos + i)), ⟨r.strm, r.pos + n⟩)

/-- The method-specific transforms of `numpy.random.Generator`, plus the
float `sqrt`/`exp` routines.  Each field maps the method's parameters and
one raw stream value to the value the method returns; all results in this
file hold for every choice of these transforms. -/
structure NumModel where
  sqrtQ : ℚ → ℚ
  expQ : ℚ → ℚ
  /-- `rng.normal(loc, scale)` per draw. -/
  normalT : ℚ → ℚ → ℚ → ℚ
  /-- `rng.uniform(low, high)` per draw. -/
  uniformT : ℚ → ℚ → ℚ → ℚ
  /-- `rng.lognormal(mean, sigma)` per draw. -/
  lognormT : ℚ → ℚ → ℚ → ℚ
  /-- `rng.beta(a, b)` per draw. -/
  betaT : ℚ → ℚ → ℚ → ℚ
  /-- `rng.integers(low, high)` per draw: a value in `[low, high)`. -/
  intT : Int → Int → ℚ → Int
  /-- `rng.choice(n, size, replace=False)` per draw: a row index in `[0, n)`.
  (That consecutive draws are distinct is not needed by any claim.) -/
  choiceT : Nat → ℚ → Int

/-- A concrete instantiation of the transforms, used when a claim is
settled by evaluation at a specific input. -/
def numTest : NumModel where
  sqrtQ := id
  expQ := id
  normalT := fun lo sc v => lo + sc * v
  uniformT := fun lo hi v => lo + (hi - lo) * v
  lognormT := fun m s v => m + s * v
  betaT := fun _ _ v => v
  intT := fun lo hi v => lo + (⌊v⌋ % (hi - lo))
  choiceT := fun n v => ⌊v⌋ % (n : Int)

/-! ## core/bias.py

Every function in `core/bias.py` that needs randomness calls
`np.random.default_rng()` WITHOUT a seed, i.e. it draws its stream from
operating-system entropy.  Accordingly each such function here takes an
explicit entropy stream `ent : Strm` standing for that unseeded generator.
Cells are `Option ℚ` (`none` = `NaN`). -/

/-- One DataFrame cell. -/
abbrev Cell : Type := Option ℚ

/-- An item matrix: a list of rows. -/
abbrev Mat : Type := List (List Cell)

/-- `df.copy()`: value-identical copy. -/
def copyDf (df : Mat) : Mat := df

/-- Number of rows (`df.shape[0]`). -/
def Mat.nRows (df : Mat) : Nat := df.length

/-- Number of columns (`df.shape[1]`); the matrices handled by the source
are rectangular, so the first row is representative. -/
def Mat.nCols (df : Mat) : Nat := (df.headD []).length

/-- `out.values[r, c] = v` for in-range indices (the generated indices
always are; out-of-range assignment is modelled as a no-op). -/
def setCell (df : Mat) (r c : Int) (v : Cell) : Mat :=
  if 0 ≤ r ∧ 0 ≤ c then
    df.set r.toNat ((df.getD r.toNat []).set c.toNat v)
  else df

/-- `out.iloc[r, :] = v`. -/
def setRow (df : Mat) (r : Int) (v : Cell) : Mat :=
  if 0 ≤ r then
    df.set r.toNat ((df.getD r.toNat []).map (fun _ => v))
  else df

/-- `bias.apply_careless`: replaces `int(n*k*rate)` random cells by random
Likert values; coordinates and values come from an unseeded generator. -/
def apply_careless (num : NumModel) (df : Mat) (rate : ℚ)
    (likert_min likert_max : Int) (ent : Strm) : Mat :=
  if rate ≤ 0 then copyDf df else
  let n := df.nRows
  let k := df.nCols
  let total := n * k
  let n_affect := (truncQ ((total : ℚ) * rate)).toNat
  -- rng = np.random.default_rng()  (unseeded: stream = ent)
  let rows := fun i => num.intT 0 (n : Int) (ent i)
  let cols := fun i => num.intT 0 (k : Int) (ent (n_affect + i))
  let vals := fun i => num.intT likert_min (likert_max + 1) (ent (2 * n_affect + i))
  (List.range n_affect).foldl
    (fun m i => setCell m (rows i) (cols i) (some ((vals i : Int) : ℚ)))
    (copyDf df)

/-- `bias.apply_straightlining`: overwrite `int(n*rate)` random rows with a
per-row constant Likert value (unseeded generator). -/
def apply_straightlining (num : NumModel) (df : Mat) (rate : ℚ)
    (likert_min likert_max : Int) (ent : Strm) : Mat :=
  if rate ≤ 0 then copyDf df else
  let n := df.nRows
  let n_people := (truncQ ((n : ℚ) * rate)).toNat
  let rows := fun i => num.choiceT n (ent i)
  let vals := fun i => num.intT likert_min (likert_max + 1) (ent (n_people + i))
  (List.range n_people).foldl
    (fun m i => setRow m (rows i) (some ((vals i : Int) : ℚ)))
    (copyDf df)

/-- `bias.apply_random_responding`: overwrite `int(n*rate)` random rows
with fully random Likert rows (unseeded generator). -/
def apply_random_responding (num : NumModel) (df : Mat) (rate : ℚ)
    (likert_min likert_max : Int) (ent : Strm) : Mat :=
  if rate ≤ 0 then copyDf df else
  let n := df.nRows
  let k := df.nCols
  let n_people := (truncQ ((n : ℚ) * rate)).toNat
  let rows := fun i => num.choiceT n (ent i)
  let vals := fun i j => num.intT likert_min (likert_max + 1)
    (ent (n_people + i * k + j))
  (List.range n_people).foldl
    (fun m i =>
      (List.range k).foldl
        (fun m2 j => setCell m2 (rows i) (Int.ofNat j) (some ((vals i j : Int) : ℚ)))
        m)
    (copyDf df)

/-- `bias.apply_midpoint_bias`: pull every cell toward the scale midpoint,
round, clip.  `NaN` cells propagate (`none ↦ none`). -/
def apply_midpoint_bias (df : Mat) (level : ℚ)
    (likert_min likert_max : Int) : Mat :=
  if level ≤ 0 then copyDf df else
  let mid : ℚ := ((likert_min : ℚ) + (likert_max : ℚ)) / 2
  df.map (fun row => row.map (fun c =>
    c.map (fun v =>
      clipQ (roundHalfEven (v + level * (mid - v)))
        (likert_min : ℚ) (likert_max : ℚ))))

/-- `bias.apply_extremity_bias`: push every cell toward the nearest scale
extreme, round, clip.  A `NaN` cell is in neither mask and stays `NaN`. -/
def apply_extremity_bias (df : Mat) (level : ℚ)
    (likert_min likert_max : Int) : Mat :=
  if level ≤ 0 then copyDf df else
  let mid : ℚ := ((likert_min : ℚ) + (likert_max : ℚ)) / 2
  df.map (fun row => row.map (fun c =>
    c.map (fun v =>
      let moved := if mid ≤ v then v + level * ((likert_max : ℚ) - v)
                   else v + level * ((likert_min : ℚ) - v)
      clipQ (roundHalfEven moved) (likert_min : ℚ) (likert_max : ℚ))))

/-- `bias.apply_acquiescence`: shift every cell by `clip(level, -1, 1)`,
round, clip.  Note the guard is `level == 0`, not `level <= 0`. -/
def apply_acquiescence (df : Mat) (level : ℚ)
    (likert_min likert_max : Int) : Mat :=
  if level = 0 then copyDf df else
  let shift := clipQ level (-1) 1
  df.map (fun row => row.map (fun c =>
    c.map (fun v =>
      clipQ (roundHalfEven (v + shift)) (likert_min : ℚ) (likert_max : ℚ))))

/-- `bias.apply_missingness`: set `int(n*k*rate)` random cells to `NaN`
(unseeded generator). -/
def apply_missingness (num : NumModel) (df : Mat) (rate : ℚ)
    (ent : Strm) : Mat :=
  if rate ≤ 0 then copyDf df else
  let n := df.nRows
  let k := df.nCols
  let total := n * k
  let n_nan := (truncQ ((total : ℚ) * rate)).toNat
  let rows := fun i => num.intT 0 (n : Int) (ent i)
  let cols := fun i => num.intT 0 (k : Int) (ent (n_nan + i))
  (List.range n_nan).foldl
    (fun m i => setCell m (rows i) (cols i) none)
    (copyDf df)

/-- `bias.apply_all_biases`: the fixed application order
careless → straight-lining → random-responding → midpoint → extremity →
acquiescence → missingness.  The four stochastic stages each construct
their own unseeded generator, hence the four entropy streams. -/
def apply_all_biases (num : NumModel) (df : Mat)
    (likert_min likert_max : Int)
    (careless_rate straightlining_rate random_response_rate
     midpoint_bias_level extreme_bias_level acquiescence_level
     missing_rate : ℚ)
    (entCareless entStraight entRandom entMissing : Strm) : Mat :=
  let out := copyDf df
  let out := apply_careless num out careless_rate likert_min likert_max entCareless
  let out := apply_straightlining num out straightlining_rate likert_min likert_max entStraight
  let out := apply_random_responding num out random_response_rate likert_min likert_max entRandom
  let out := apply_midpoint_bias out midpoint_bias_level likert_min likert_max
  let out := apply_extremity_bias out extreme_bias_level likert_min likert_max
  let out := apply_acquiescence out acquiescence_level likert_min likert_max
  let out := apply_missingness num out missing_rate entMissing
  out

/-! ## core/diagnostics.py

`_safe_numeric_df` coerces cells to numbers and drops all-`NaN` rows; the
diagnostics claims quantify over numeric item matrices, which that
function leaves unchanged, so matrices here are `List (List ℚ)` (rows). -/

/-- Column `j` of a row-major matrix (`df.iloc[:, j]`). -/
def colAt (rows : List (List ℚ)) (j : Nat) : List ℚ :=
  rows.map (fun r => r.getD j 0)

/-- Sample variance, ddof = 1 (`pandas` `.var()`); meaningful for
`xs.length ≥ 2` and guarded by `svarOpt` elsewhere. -/
def svar (xs : List ℚ) : ℚ :=
  (xs.map (fun x => (x - meanQ xs) ^ 2)).sum / ((xs.length : ℚ) - 1)

/-- `pandas` `.var(ddof=1)` with its `NaN` result (here `none`) on fewer
than two observations. -/
def svarOpt (xs : List ℚ) : Option ℚ :=
  if xs.length < 2 then none else some (svar xs)

/-- `df.sum(axis=1)`. -/
def rowSums (rows : List (List ℚ)) : List ℚ := rows.map List.sum

/-- `diagnostics.cronbach_alpha`.  Returns `none` wherever the Python
function returns `NaN` (it never raises: `k < 2`, fewer than two rows --
where `pandas` variance is `NaN` and the arithmetic propagates it -- and
non-positive total variance all flow to `NaN`). -/
def cronbach_alpha (rows : List (List ℚ)) : Option ℚ :=
  let k := (rows.headD []).length
  if k < 2 then none else
  match svarOpt (rowSums rows) with
  | none => none
  | some total_var =>
    if total_var ≤ 0 then none
    else
      let item_var_sum := ((List.range k).map (fun j => svar (colAt rows j))).sum
      some (((k : ℚ) / ((k : ℚ) - 1)) * (1 - item_var_sum / total_var))

/- `compute_loadings` correlates each indicator with the unit-weight
composite.  Pearson correlation needs a float square root, so the
correlation values themselves enter the `compute_htmt` embedding as
inputs; what is embedded exactly is the aggregation the claims are
about. -/

/-- The inner `off_diag_mean` of `diagnostics.compute_htmt`: flatten the
absolute correlation matrix, keep the entries `< 0.9999`, return their
mean (`NaN`, i.e. `none`, if nothing remains). -/
def off_diag_mean (m : List (List ℚ)) : Option ℚ :=
  let vals := m.flatten
  let filtered := vals.filter (fun v => decide (v < 9999 / 10000))
  if filtered.isEmpty then none else some (meanQ filtered)

/-- Row `k` of the matrix with its entry at column `i + k` removed:
the off-diagonal part of each row, for a matrix whose rows start at
diagonal offset `i`. -/
def offDiagRows : Nat → List (List ℚ) → List (List ℚ)
  | _, [] => []
  | i, r :: rs => r.eraseIdx i :: offDiagRows (i + 1) rs

/-- The off-diagonal entries of a square matrix: every row with its
diagonal entry removed.  This follows the specification's words
("the off-diagonal entries of each construct's correlation matrix"). -/
def offDiagEntries (m : List (List ℚ)) : List ℚ := (offDiagRows 0 m).flatten

/-- The monotrait denominator term as the specification describes it: the
mean over exactly the index-off-diagonal entries. -/
def specOffDiagMean (m : List (List ℚ)) : Option ℚ :=
  let vals := offDiagEntries m
  if vals.isEmpty then none else some (meanQ vals)

/-- `diagnostics.compute_htmt`, aggregation step: `het` is the vector of
absolute heterotrait correlations (`df_a.corrwith(df_b).abs()` after
dropping non-finite entries), `mono_a` / `mono_b` the within-construct
absolute correlation matrices (`df.corr().abs()`).  When a monotrait mean
is `NaN` the Python comparison `NaN <= 0` is false and the `NaN`
propagates through the final ratio, hence `none`. -/
def compute_htmt (num : NumModel) (het : List ℚ)
    (mono_a mono_b : List (List ℚ)) : Option ℚ :=
  if het.isEmpty then none else
  match off_diag_mean mono_a, off_diag_mean mono_b with
  | some ma, some mb =>
    if ma ≤ 0 ∨ mb ≤ 0 then none
    else some (meanQ het / num.sqrtQ (ma * mb))
  | _, _ => none

/-! ## List lemmas for the HTMT off-diagonal analysis -/

/-- If exactly the entry at index `i` of `r` fails the bound `< t`, then
filtering by the bound is the same as removing index `i`. -/
lemma filter_lt_eq_eraseIdx (t : ℚ) :
    ∀ (r : List ℚ) (i : Nat) (hi : i < r.length),
      (∀ j (hj : j < r.length), j ≠ i → r.get ⟨j, hj⟩ < t) →
      ¬ r.get ⟨i, hi⟩ < t →
      r.filter (fun v => decide (v < t)) = r.eraseIdx i := by
  intro r
  induction r with
  | nil => intro i hi _ _; exact absurd hi (by simp)
  | cons a as ih =>
    intro i hi hoff hdiag
    cases i with
    | zero =>
      have ha : ¬ a < t := by simpa using hdiag
      rw [List.filter_cons_of_neg (by simpa using ha)]
      have : (a :: as).eraseIdx 0 = as := rfl
      rw [this]
      apply List.filter_eq_self.mpr
      intro b hb
      obtain ⟨⟨j, hj⟩, rfl⟩ := List.mem_iff_get.mp hb
      have h := hoff (j + 1) (Nat.succ_lt_succ hj) (Nat.succ_ne_zero j)
      simpa using h
    | succ i =>
      have ha : a < t := by
        have h := hoff 0 (Nat.succ_pos _) (by omega)
        simpa using h
      rw [List.filter_cons_of_pos (by simpa using ha)]
      have : (a :: as).eraseIdx (i + 1) = a :: as.eraseIdx i := rfl
      rw [this]
      congr 1
      refine ih i (Nat.lt_of_succ_lt_succ hi) ?_ ?_
      · intro j hj hne
        have h := hoff (j + 1) (Nat.succ_lt_succ hj) (by omega)
        simpa using h
      · intro h
        exact hdiag (by simpa using h)

/-- Row `r` keeps exactly its entries off index `d` under the bound `< t`:
position `d` is at least `t` and every other position is below `t`. -/
def RowOkAt (t : ℚ) (d : Nat) (r : List ℚ) : Prop :=
  ∃ h : d < r.length,
    (∀ j (hj : j < r.length), j ≠ d → r.get ⟨j, hj⟩ < t) ∧
    ¬ r.get ⟨d, h⟩ < t

/-- Filtering the flattened matrix by `< t` removes exactly the shifted
diagonal when row `k` satisfies `RowOkAt` at position `i + k`. -/
lemma flatten_filter_eq_offDiag (t : ℚ) :
    ∀ (i : Nat) (m : List (List ℚ)),
      (∀ k (hk : k < m.length), RowOkAt t (i + k) (m.get ⟨k, hk⟩)) →
      m.flatten.filter (fun v => decide (v < t)) = (offDiagRows i m).flatten := by
  intro i m
  induction m generalizing i with
  | nil => intro _; simp [offDiagRows]
  | cons r rs ih =>
    intro hyp
    have hyp0 := hyp 0 (Nat.succ_pos _)
    simp only [List.get_cons_zero, Nat.add_zero, RowOkAt] at hyp0
    obtain ⟨h0, hoff0, hdiag0⟩ := hyp0
    simp only [List.flatten_cons, List.filter_append, offDiagRows]
    congr 1
    · exact filter_lt_eq_eraseIdx t r i h0 hoff0 hdiag0
    · refine ih (i + 1) ?_
      intro k hk
      have hyps := hyp (k + 1) (Nat.succ_lt_succ hk)
      simp only [List.get_cons_succ] at hyps
      rw [show i + 1 + k = i + (k + 1) by omega]
      exact hyps

/-! ## Claim C10 -/

/-- C10: `apply_all_biases` with every rate and level equal to zero is the
identity on the item matrix: each stage takes its `rate <= 0`
(respectively `level == 0`) branch and returns `df.copy()`, so the result
equals the input cell for cell -- for every input matrix, `NaN` cells
included, and every entropy the unseeded generators might have supplied.
(That the input object itself is not mutated is immediate in the source:
every stage operates on and returns a fresh `df.copy()`.) -/
theorem apply_all_biases_zero_identity (num : NumModel) (df : Mat)
    (likert_min likert_max : Int) (e1 e2 e3 e4 : Strm) :
    apply_all_biases num df likert_min likert_max 0 0 0 0 0 0 0 e1 e2 e3 e4 = df := by
  simp [apply_all_biases, apply_careless, apply_straightlining,
    apply_random_responding, apply_midpoint_bias, apply_extremity_bias,
    apply_acquiescence, apply_missingness, copyDf]

/-! ## Claim C6 -/

/-- An all-zeros entropy stream. -/
def entZero : Strm := fun _ => 0

/-- An all-ones entropy stream. -/
def entOne : Strm := fun _ => 1

/-- C6 is false of the code: the bias transforms draw from
`np.random.default_rng()` constructed WITHOUT a seed, so their randomness
comes from operating-system entropy, not from the run's seed.  Concretely,
with `careless_rate = 1` on the 1x1 matrix `[[3]]` and Likert range 1..5,
two calls of `apply_all_biases` that observe different entropy return
different matrices, contradicting "two calls with identical input matrix,
Likert bounds, and rate/level parameters produce identical output". -/
theorem apply_all_biases_entropy_dependent :
    apply_all_biases numTest [[some 3]] 1 5 1 0 0 0 0 0 0
        entZero entZero entZero entZero ≠
    apply_all_biases numTest [[some 3]] 1 5 1 0 0 0 0 0 0
        entOne entZero entZero entZero := by
  have stage : ∀ ent : Strm,
      apply_all_biases numTest [[some 3]] 1 5 1 0 0 0 0 0 0
        ent entZero entZero entZero =
      apply_careless numTest [[some 3]] 1 1 5 ent := by
    intro ent
    simp [apply_all_biases, apply_straightlining, apply_random_responding,
      apply_midpoint_bias, apply_extremity_bias, apply_acquiescence,
      apply_missingness, copyDf]
  have h1 : apply_careless numTest [[some 3]] 1 1 5 entZero = [[some 1]] := by
    norm_num [apply_careless, numTest, truncQ, setCell, copyDf, entZero,
      Mat.nRows, Mat.nCols, List.range_succ]
  have h2 : apply_careless numTest [[some 3]] 1 1 5 entOne = [[some 2]] := by
    norm_num [apply_careless, numTest, truncQ, setCell, copyDf, entOne,
      Mat.nRows, Mat.nCols, List.range_succ]
  rw [stage, stage, h1, h2]
  intro h
  have := List.head_eq_of_cons_eq h
  simp at this

/-! ## Claim C7 -/

/-- C7: `cronbach_alpha` returns
`(k/(k-1)) * (1 - (sum of item variances) / (variance of row sums))` for
every numeric item matrix with `k >= 2` columns (and at least two rows, so
that the `pandas` ddof-1 variances are defined) whose row-sum variance is
positive; it returns the missing value `none` (never an exception -- the
embedding is a total function into `Option`) when `k < 2` or when the
total variance is zero. -/
theorem cronbach_alpha_formula_and_guards (rows : List (List ℚ)) :
    (2 ≤ (rows.headD []).length → 2 ≤ rows.length → 0 < svar (rowSums rows) →
      cronbach_alpha rows =
        some ((((rows.headD []).length : ℚ) / (((rows.headD []).length : ℚ) - 1)) *
          (1 - ((List.range (rows.headD []).length).map
                  (fun j => svar (colAt rows j))).sum / svar (rowSums rows)))) ∧
    ((rows.headD []).length < 2 → cronbach_alpha rows = none) ∧
    (2 ≤ rows.length → svar (rowSums rows) = 0 → cronbach_alpha rows = none) := by
  have hlen : (rowSums rows).length = rows.length := by simp [rowSums]
  refine ⟨?_, ?_, ?_⟩
  · intro hk hn hv
    have hk2 : ¬ (rows.headD []).length < 2 := not_lt.mpr hk
    have hvar : svarOpt (rowSums rows) = some (svar (rowSums rows)) := by
      unfold svarOpt
      rw [if_neg (by omega)]
    simp only [cronbach_alpha, hk2, if_false, hvar]
    rw [if_neg (not_le.mpr hv)]
  · intro hk
    simp only [cronbach_alpha, if_pos hk]
  · intro hn hv
    by_cases hk : (rows.headD []).length < 2
    · simp only [cronbach_alpha, if_pos hk]
    · have hvar : svarOpt (rowSums rows) = some (svar (rowSums rows)) := by
        unfold svarOpt
        rw [if_neg (by omega)]
      simp only [cronbach_alpha, hk, if_false, hvar]
      rw [if_pos (le_of_eq hv)]

/-- Witness for C7 at the 3x2 matrix `[[1,2],[2,4],[3,6]]`: item variances
1 and 4, row-sum variance 9, so alpha = 2 * (1 - 5/9) = 8/9. -/
theorem cronbach_alpha_formula_witness :
    cronbach_alpha [[1, 2], [2, 4], [3, 6]] = some (8 / 9) := by
  have h := (cronbach_alpha_formula_and_guards [[1, 2], [2, 4], [3, 6]]).1
    (by norm_num) (by norm_num) (by norm_num [svar, rowSums, meanQ])
  refine h.trans ?_
  norm_num [svar, rowSums, colAt, meanQ, List.range_succ]

/-! ## Claim C8 -/

/-- C8 is false as stated: the code's `off_diag_mean` drops entries by
VALUE (`v < 0.9999` kept), not by index.  On the monotrait absolute
correlation matrix `[[1,1],[1,1]]` -- which arises whenever a construct's
two indicators are perfectly correlated, e.g. one indicator duplicated or
doubled -- the code excludes the off-diagonal entries too and yields `NaN`,
while the mean over exactly the off-diagonal entries is `1`. -/
theorem off_diag_mean_filter_not_index_based :
    off_diag_mean [[1, 1], [1, 1]] ≠ specOffDiagMean [[1, 1], [1, 1]] ∧
    off_diag_mean [[1, 1], [1, 1]] = none ∧
    specOffDiagMean [[1, 1], [1, 1]] = some 1 := by
  have h1 : off_diag_mean [[1, 1], [1, 1]] = none := by
    norm_num [off_diag_mean, meanQ]
  have h2 : specOffDiagMean [[1, 1], [1, 1]] = some 1 := by
    norm_num [specOffDiagMean, offDiagEntries, offDiagRows, meanQ]
  refine ⟨?_, h1, h2⟩
  rw [h1, h2]
  simp

/-- C8 (amended): the monotrait denominator term equals the mean over
exactly the off-diagonal entries PROVIDED every off-diagonal absolute
correlation is `< 0.9999` (the diagonal entries, being `>= 0.9999`, and
only they, are then excluded); entries `>= 0.9999` are excluded regardless
of their position. -/
theorem off_diag_mean_eq_offDiag_of_bounded (m : List (List ℚ))
    (hdiag : ∀ k (hk : k < m.length), ∃ h : k < (m.get ⟨k, hk⟩).length,
      ¬ (m.get ⟨k, hk⟩).get ⟨k, h⟩ < 9999 / 10000)
    (hoff : ∀ k (hk : k < m.length), ∀ j (hj : j < (m.get ⟨k, hk⟩).length),
      j ≠ k → (m.get ⟨k, hk⟩).get ⟨j, hj⟩ < 9999 / 10000) :
    off_diag_mean m = specOffDiagMean m := by
  have key := flatten_filter_eq_offDiag (9999 / 10000) 0 m ?_
  · simp only [off_diag_mean, specOffDiagMean, offDiagEntries, key]
  · intro k hk
    obtain ⟨h, hd⟩ := hdiag k hk
    rw [Nat.zero_add]
    exact ⟨h, fun j hj hne => hoff k hk j hj hne, hd⟩

/-- Witness for the amended C8 at the proper 2x2 absolute correlation
matrix `[[1, 1/2], [1/2, 1]]`: both computations give `1/2`. -/
theorem off_diag_mean_eq_offDiag_witness :
    off_diag_mean [[1, 1 / 2], [1 / 2, 1]] = some (1 / 2) := by
  have h := off_diag_mean_eq_offDiag_of_bounded [[1, 1 / 2], [1 / 2, 1]]
    (by intro k hk
        have hk2 : k < 2 := by simpa using hk
        interval_cases k <;> exact ⟨by norm_num, by norm_num⟩)
    (by intro k hk j hj hne
        have hk2 : k < 2 := by simpa using hk
        interval_cases k <;>
          (have hj2 : j < 2 := by simpa using hj
           interval_cases j <;> first | omega | norm_num))
  refine h.trans ?_
  norm_num [specOffDiagMean, offDiagEntries, offDiagRows, meanQ]

/-! ## core/config.py

The configuration dataclasses (fields the core engines read).  Validation
(`__post_init__`, `validate`) fails fast on malformed input; the claims
below quantify over configurations, adding a validated invariant as a
hypothesis where a claim needs one. -/

/-- `config.PathConfig`: one structural path `source → target` with
coefficient `beta`. -/
structure PathConfig where
  source : String
  target : String
  beta : ℚ

/-- `config.StructuralConfig`. -/
structure StructuralConfig where
  paths : List PathConfig
  r2_targets : List (String × ℚ)

/-- `config.ConstructConfig`. -/
structure ConstructConfig where
  name : String
  n_items : Nat
  latent_mean : ℚ := 0
  latent_sd : ℚ := 1
  distribution : String := "normal"
  skew : ℚ := 0
  kurtosis : ℚ := 3
  target_loading_mean : ℚ := 3 / 4
  target_loading_min : ℚ := 3 / 5
  target_loading_max : ℚ := 9 / 10
  reverse_items : Int := 0

/-- `config.SampleConfig`.  `random_seed : Optional[int]`. -/
structure SampleConfig where
  n_respondents : Nat := 500
  likert_min : Int := 1
  likert_max : Int := 5
  random_seed : Option Int := some 123

/-- `config.DemographicConfig`. -/
structure DemographicConfig where
  add_demographics : Bool := true

/-- `config.ModelConfig` (the fields `generate_dataset` reads; the bias
parameters travel separately through `apply_all_biases`). -/
structure ModelConfig where
  project_name : String
  researcher_name : String
  constructs : List ConstructConfig
  sample : SampleConfig
  demographics : DemographicConfig
  structural : StructuralConfig

/-- `np.random.default_rng(seed)`: a fixed deterministic function
`seedStream` of the seed when a seed is given; operating-system entropy
(the `ent` stream) when called with `None`. -/
def default_rng (seedStream : Int → Strm) (seed : Option Int) (ent : Strm) : RNG :=
  match seed with
  | some s => ⟨seedStream s, 0⟩
  | none => ⟨ent, 0⟩

/-! ## core/structural.py -/

/-- `generate_exogenous_latent`: sample one construct's latent column from
its configured distribution family (the `elif` chain of the source; the
final `else` falls back to normal). -/
def generate_exogenous_latent (num : NumModel) (c : ConstructConfig)
    (sample : SampleConfig) (rng : RNG) : List ℚ × RNG :=
  let n := sample.n_respondents
  let mean := c.latent_mean
  let sd := c.latent_sd
  let (draws, rng2) := rng.draw n
  let latent :=
    if c.distribution = "normal" then draws.map (num.normalT mean sd)
    else if c.distribution = "uniform" then
      let low := mean - num.sqrtQ 3 * sd
      let high := mean + num.sqrtQ 3 * sd
      draws.map (num.uniformT low high)
    else if c.distribution = "lognormal" then
      draws.map (num.lognormT mean |sd|)
    else if c.distribution = "skewed" then
      let base := draws.map (num.normalT 0 1)
      let skf := clipQ c.skew (-2) 2
      let raw := if 0 ≤ skf then base.map (fun b => num.expQ (skf * b))
                 else base.map (fun b => -(num.expQ (-skf * b)))
      let z := raw.map (fun v =>
        (v - meanQ raw) / (num.sqrtQ (popVar raw) + 1 / 100000000))
      z.map (fun v => mean + sd * v)
    else if c.distribution = "beta" then
      let x := draws.map (num.betaT 2 2)
      let z := x.map (fun v =>
        (v - meanQ x) / (num.sqrtQ (popVar x) + 1 / 100000000))
      z.map (fun v => mean + sd * v)
    else draws.map (num.normalT mean sd)
  (latent, rng2)

/-- `(vals - vals.mean()) / (vals.std() + 1e-8)`: the z-scoring used for
parents, linear predictors and the final endogenous column. -/
def zscore (num : NumModel) (xs : List ℚ) : List ℚ :=
  xs.map (fun v => (v - meanQ xs) / (num.sqrtQ (popVar xs) + 1 / 100000000))

/-- Insert-if-absent, preserving first-insertion order (the deterministic
model of Python's set/dict key accumulation). -/
def addNode (ns : List String) (x : String) : List String :=
  if x ∈ ns then ns else ns ++ [x]

/-- `parents.setdefault(tgt, []).append(src)` on an association list with
unique keys. -/
def addParentEdge (m : List (String × List String)) (tgt src : String) :
    List (String × List String) :=
  if m.any (fun kv => decide (kv.1 = tgt)) then
    m.map (fun kv => if kv.1 = tgt then (kv.1, kv.2 ++ [src]) else kv)
  else m ++ [(tgt, [src])]

/-- `_build_graph`: nodes (every construct referenced by a path), the
parent map `target -> sources` and the child map `source -> targets`.
Python keeps `nodes` in a set whose iteration order is unspecified; the
model fixes first-insertion order (no claim depends on the order). -/
def build_graph (structural : StructuralConfig) :
    List String × List (String × List String) × List (String × List String) :=
  structural.paths.foldl
    (fun acc p =>
      (addNode (addNode acc.1 p.source) p.target,
       addParentEdge acc.2.1 p.target p.source,
       addParentEdge acc.2.2 p.source p.target))
    ([], [], [])

/-- `parents.get(x, [])`. -/
def srcsOf (parents : List (String × List String)) (x : String) : List String :=
  ((parents.find? (fun kv => decide (kv.1 = x))).map Prod.snd).getD []

/-- The key list of the `in_deg` dict: all nodes, then (via `setdefault`)
every parent-map target and source. -/
def inDegKeys (nodes : List String) (parents : List (String × List String)) :
    List String :=
  parents.foldl (fun ks kv => kv.2.foldl addNode (addNode ks kv.1)) nodes

/-- The initial in-degree table: `0` for every node, then
`in_deg[tgt] += len(srcs)` per parent-map entry. -/
def inDeg0 (parents : List (String × List String)) : String → Int :=
  parents.foldl
    (fun f kv => fun x => if x = kv.1 then f x + (kv.2.length : Int) else f x)
    (fun _ => 0)

/-- One pass of the inner loop of `_topological_sort`'s while-loop: for
every parent-map entry `(tgt, srcs)` with `u ∈ srcs`, decrement
`in_deg[tgt]`, enqueueing `tgt` the moment its in-degree hits zero.
Returns the updated table and the enqueued targets in iteration order. -/
def processDec (u : String) :
    List (String × List String) → (String → Int) → (String → Int) × List String
  | [], deg => (deg, [])
  | kv :: ps, deg =>
    if u ∈ kv.2 then
      let deg2 : String → Int := fun x => if x = kv.1 then deg kv.1 - 1 else deg x
      let rest := processDec u ps deg2
      (rest.1, (if deg kv.1 - 1 = 0 then [kv.1] else []) ++ rest.2)
    else processDec u ps deg

/-- The while-loop of `_topological_sort`.  Fuel only bounds the
iteration count: each pass pops one queue element, and (as the invariants
below show) a node enters the queue at most once, so `|keys| + 1` passes
can never be exhausted before the queue empties. -/
def kahnLoop (parents : List (String × List String)) :
    Nat → List String → (String → Int) → List String → List String
  | 0, _, _, order => order
  | _ + 1, [], _, order => order
  | fuel + 1, u :: rest, deg, order =>
    let step := processDec u parents deg
    kahnLoop parents fuel (rest ++ step.2) step.1 (order ++ [u])

/-- The cycle error of `_topological_sort`. -/
def cycleMsg : String :=
  "Structural model contains a cycle (not allowed in PLS-SEM)."

/-- `_topological_sort`: Kahn's algorithm; raises the cycle error when the
number of emitted nodes differs from the key count of `in_deg`. -/
def topological_sort (nodes : List String)
    (parents : List (String × List String)) : Except String (List String) :=
  let ks := inDegKeys nodes parents
  let order := kahnLoop parents (ks.length + 1)
    (ks.filter (fun n => decide (inDeg0 parents n = 0))) (inDeg0 parents) []
  if order.length ≠ ks.length then .error cycleMsg else .ok order

/-! ### simulate_structural_latents -/

/-- A Python value reaching `simulate_structural_latents` in its
`constructs` collection.  Called on a LIST of constructs (as in the tests
of `core/structural.py`) every element is `construct c`; called on the
DICT that `generate_dataset` builds, iteration yields the string keys of
the dict, i.e. `str k` elements. -/
inductive PyVal where
  | str (s : String)
  | construct (c : ConstructConfig)

/-- Python's `AttributeError` for `.name` on a string. -/
def attrErrMsg : String := "AttributeError: str object has no attribute name"

/-- `c.name` paired with `c`, as in the comprehension
`{c.name: c for c in constructs}`; attribute access on a string raises. -/
def pyNamePair : PyVal → Except String (String × ConstructConfig)
  | .construct c => .ok (c.name, c)
  | .str _ => .error attrErrMsg

/-- Attribute access on an element of the dynamic constructs collection. -/
def pyAsConstruct : PyVal → Except String ConstructConfig
  | .construct c => .ok c
  | .str _ => .error attrErrMsg

/-- `cons_map[name]`. -/
def lookupCons (m : List (String × ConstructConfig)) (x : String) :
    Option ConstructConfig :=
  (m.find? (fun kv => decide (kv.1 = x))).map Prod.snd

/-- `latent_scores[name]` / `name in latent_scores`. -/
def lookupCol (scores : List (String × List ℚ)) (x : String) : Option (List ℚ) :=
  (scores.find? (fun kv => decide (kv.1 = x))).map Prod.snd

/-- `r2_dict.get(name, 0.0)`. -/
def lookupQ (m : List (String × ℚ)) (x : String) : Option ℚ :=
  (m.find? (fun kv => decide (kv.1 = x))).map Prod.snd

/-- The R² heuristic of `simulate_structural_latents` (lines 261-264):
`np.sum(np.square(beta_vector))` over `1 +` the same sum, clipped to
`[0.1, 0.7]` -- i.e. ‖β‖²/(1+‖β‖²) in terms of the Euclidean norm. -/
def heuristicR2 (betas : List ℚ) : ℚ :=
  let s := (betas.map (fun b => b ^ 2)).sum
  clipQ (s / (1 + s)) (1 / 10) (7 / 10)

/-- The R² decision of `simulate_structural_latents` (lines 257-266):
take the explicit target (default 0), clip it into `[0, 0.95]`, and use
the heuristic whenever the clipped target is `<= 0`. -/
def decideR2 (r2_targets : List (String × ℚ)) (name : String)
    (betas : List ℚ) : ℚ :=
  let r2t := clipQ ((lookupQ r2_targets name).getD 0) 0 (95 / 100)
  if r2t ≤ 0 then heuristicR2 betas else r2t

/-- Error for a parent column that has not been generated yet. -/
def parentErrMsg (src name : String) : String :=
  "Parent construct " ++ src ++ " for " ++ name ++
  " has not been generated yet. Check structural paths for cycles or incorrect ordering."

/-- Error for a path node with no construct definition. -/
def missingConsMsg (n : String) : String :=
  "Construct " ++ n ++ " appears in structural paths but is not defined in constructs."

/-- `np.dot(beta_vector.T, parent_matrix).flatten()`: the pointwise
weighted sum of the z-scored parent columns. -/
def weightedSum (cols : List (ℚ × List ℚ)) (n : Nat) : List ℚ :=
  (List.range n).map (fun t => (cols.map (fun bc => bc.1 * (bc.2.getD t 0))).sum)

/-- Collect `(beta, z-scored parent column)` pairs, raising when a parent
column is missing from `latent_scores`. -/
def collectParents (num : NumModel) (scores : List (String × List ℚ))
    (betas : List (String × ℚ)) (childName : String) :
    Except String (List (ℚ × List ℚ)) :=
  betas.foldl
    (fun acc sb =>
      match acc with
      | .error e => .error e
      | .ok cols =>
        match lookupCol scores sb.1 with
        | none => .error (parentErrMsg sb.1 childName)
        | some vals => .ok (cols ++ [(sb.2, zscore num vals)]))
    (.ok [])

/-- The endogenous combination step of `simulate_structural_latents`:
z-score the weighted parent sum, mix with standard-normal noise as
`sqrt(r2) * predictor + sqrt(1-r2) * noise`, z-score again and rescale to
the construct's mean and sd. -/
def combineEndogenous (num : NumModel) (sample : SampleConfig)
    (c : ConstructConfig) (r2 : ℚ) (cols : List (ℚ × List ℚ)) (rng : RNG) :
    List ℚ × RNG :=
  let n := sample.n_respondents
  let lin := zscore num (weightedSum cols n)
  let (draws, rng2) := rng.draw n
  let eps := draws.map (num.normalT 0 1)
  let y_std := List.zipWith
    (fun a b => num.sqrtQ r2 * a + num.sqrtQ (1 - r2) * b) lin eps
  let y := (zscore num y_std).map (fun v => c.latent_mean + c.latent_sd * v)
  (y, rng2)

/-- `simulate_structural_latents`.  The `constructs` collection is dynamic
(`PyVal`): `generate_dataset` passes the iteration of a dict (its string
keys), direct callers pass the construct objects.  Construct names are
unique after `ModelConfig.validate`, so the association list mirrors the
Python dict. -/
def simulate_structural_latents (num : NumModel) (seedStream : Int → Strm)
    (constructs : List PyVal) (sample : SampleConfig)
    (structural : StructuralConfig) (ent : Strm) :
    Except String (List (String × List ℚ)) :=
  let rng0 := default_rng seedStream sample.random_seed ent
  match constructs.mapM pyNamePair with
  | .error e => .error e
  | .ok cons_map =>
    if structural.paths.isEmpty then
      -- no structural relations: generate each construct independently
      match constructs.foldl
        (fun (acc : Except String (List (String × List ℚ) × RNG)) cv =>
          match acc with
          | .error e => .error e
          | .ok (scores, rng) =>
            match pyAsConstruct cv with
            | .error e => .error e
            | .ok c =>
              let (latent, rng2) := generate_exogenous_latent num c sample rng
              .ok (scores ++ [(c.name, latent)], rng2))
        (.ok (([] : List (String × List ℚ)), rng0)) with
      | .error e => .error e
      | .ok (scores, _) => .ok scores
    else
      let g := build_graph structural
      let nodes0 := g.1
      let parents := g.2.1
      -- every path node must be a defined construct
      match nodes0.find? (fun n => !(cons_map.any (fun kv => decide (kv.1 = n)))) with
      | some n => .error (missingConsMsg n)
      | none =>
        -- add declared constructs not referenced by any path
        let nodes := cons_map.foldl (fun ns kv => addNode ns kv.1) nodes0
        match topological_sort nodes parents with
        | .error e => .error e
        | .ok order =>
          -- first pass: exogenous constructs (no parents)
          match order.foldl
            (fun (acc : Except String (List (String × List ℚ) × RNG)) name =>
              match acc with
              | .error e => .error e
              | .ok (scores, rng) =>
                if (srcsOf parents name).isEmpty then
                  match lookupCons cons_map name with
                  | none => .error ("KeyError: " ++ name)
                  | some c =>
                    let (latent, rng2) := generate_exogenous_latent num c sample rng
                    .ok (scores ++ [(name, latent)], rng2)
                else .ok (scores, rng))
            (.ok (([] : List (String × List ℚ)), rng0)) with
          | .error e => .error e
          | .ok (scores1, rng1) =>
            -- second pass: endogenous constructs
            match order.foldl
              (fun (acc : Except String (List (String × List ℚ) × RNG)) name =>
                match acc with
                | .error e => .error e
                | .ok (scores, rng) =>
                  if (lookupCol scores name).isSome ∧ (srcsOf parents name).isEmpty then
                    .ok (scores, rng)  -- already generated as exogenous
                  else if (srcsOf parents name).isEmpty then
                    match lookupCons cons_map name with
                    | none => .error ("KeyError: " ++ name)
                    | some c =>
                      let (latent, rng2) := generate_exogenous_latent num c sample rng
                      .ok (scores ++ [(name, latent)], rng2)
                  else
                    let parent_names := srcsOf parents name
                    let betas := (structural.paths.filter
                      (fun p => decide (p.target = name) && decide (p.source ∈ parent_names))).map
                      (fun p => (p.source, p.beta))
                    if betas.isEmpty then
                      match lookupCons cons_map name with
                      | none => .error ("KeyError: " ++ name)
                      | some c =>
                        let (latent, rng2) := generate_exogenous_latent num c sample rng
                        .ok (scores ++ [(name, latent)], rng2)
                    else
                      match collectParents num scores betas name with
                      | .error e => .error e
                      | .ok cols =>
                        match lookupCons cons_map name with
                        | none => .error ("KeyError: " ++ name)
                        | some c =>
                          let r2 := decideR2 structural.r2_targets name (betas.map Prod.snd)
                          let (y, rng2) := combineEndogenous num sample c r2 cols rng
                          .ok (scores ++ [(name, y)], rng2))
              (.ok (scores1, rng1)) with
            | .error e => .error e
            | .ok (scores2, rng2) =>
              -- fallback: any declared construct still missing is exogenous
              match constructs.foldl
                (fun (acc : Except String (List (String × List ℚ) × RNG)) cv =>
                  match acc with
                  | .error e => .error e
                  | .ok (scores, rng) =>
                    match pyAsConstruct cv with
                    | .error e => .error e
                    | .ok c =>
                      if (lookupCol scores c.name).isSome then Except.ok (scores, rng)
                      else
                        let (latent, rng3) := generate_exogenous_latent num c sample rng
                        Except.ok (scores ++ [(c.name, latent)], rng3))
                (Except.ok (scores2, rng2)) with
              | .error e => .error e
              | .ok (scores3, _) =>
                -- reorder columns to the declared construct order
                match constructs.mapM
                  (fun cv =>
                    match pyAsConstruct cv with
                    | .error e => Except.error e
                    | .ok c =>
                      match lookupCol scores3 c.name with
                      | none => Except.error ("KeyError: " ++ c.name)
                      | some col => Except.ok (c.name, col)) with
                | .error e => .error e
                | .ok ordered => .ok ordered

/-! ## Verification of the cycle detection (claims about `_topological_sort`)

Throughout, `NodupKeys P` states that the parent map has unique keys --
true of every map built by `setdefault`-style insertion. -/

/-- Unique keys of an association list. -/
def NodupKeys (P : List (String × List String)) : Prop := (P.map Prod.fst).Nodup

/-- `srcsOf` on a cons: the head entry wins when its key matches. -/
lemma srcsOf_cons (kv : String × List String) (ps : List (String × List String))
    (x : String) :
    srcsOf (kv :: ps) x = if kv.1 = x then kv.2 else srcsOf ps x := by
  by_cases h : kv.1 = x
  · simp [srcsOf, List.find?_cons, h]
  · simp [srcsOf, List.find?_cons, h]

/-- A key absent from the list has no sources. -/
lemma srcsOf_eq_nil_of_not_key (ps : List (String × List String)) (x : String)
    (h : x ∉ ps.map Prod.fst) : srcsOf ps x = [] := by
  induction ps with
  | nil => simp [srcsOf]
  | cons kv ps ih =>
    simp only [List.map_cons, List.mem_cons, not_or] at h
    rw [srcsOf_cons, if_neg (fun he => h.1 he.symm), ih h.2]

/-- Appending `src` to the entry of a key distinct from `x` leaves
`srcsOf x` unchanged. -/
lemma srcsOf_map_append_ne (m : List (String × List String)) (tgt src x : String)
    (hne : x ≠ tgt) :
    srcsOf (m.map (fun kv => if kv.1 = tgt then (kv.1, kv.2 ++ [src]) else kv)) x
      = srcsOf m x := by
  induction m with
  | nil => simp [srcsOf]
  | cons kv ps ih =>
    simp only [List.map_cons]
    by_cases hkv : kv.1 = tgt
    · rw [if_pos hkv, srcsOf_cons, srcsOf_cons]
      have hne2 : kv.1 ≠ x := fun he => hne ((he.symm).trans hkv)
      rw [if_neg hne2, if_neg hne2, ih]
    · rw [if_neg hkv, srcsOf_cons, srcsOf_cons]
      by_cases hx : kv.1 = x
      · rw [if_pos hx, if_pos hx]
      · rw [if_neg hx, if_neg hx, ih]

/-- Appending `src` to a present key appends it to that key's sources. -/
lemma srcsOf_map_append_eq (m : List (String × List String)) (tgt src : String)
    (hkey : tgt ∈ m.map Prod.fst) :
    srcsOf (m.map (fun kv => if kv.1 = tgt then (kv.1, kv.2 ++ [src]) else kv)) tgt
      = srcsOf m tgt ++ [src] := by
  induction m with
  | nil => simp at hkey
  | cons kv ps ih =>
    simp only [List.map_cons]
    by_cases hkv : kv.1 = tgt
    · rw [if_pos hkv, srcsOf_cons, srcsOf_cons, if_pos hkv, if_pos hkv]
    · rw [if_neg hkv, srcsOf_cons, srcsOf_cons, if_neg hkv, if_neg hkv]
      refine ih ?_
      simp only [List.map_cons, List.mem_cons] at hkey
      exact hkey.resolve_left (fun he => hkv he.symm)

/-- Appending a fresh entry behaves like an update at the fresh key. -/
lemma srcsOf_append_entry (m : List (String × List String)) (tgt src x : String)
    (hnokey : tgt ∉ m.map Prod.fst) :
    srcsOf (m ++ [(tgt, [src])]) x =
      if x = tgt then srcsOf m x ++ [src] else srcsOf m x := by
  induction m with
  | nil =>
    simp only [List.nil_append]
    rw [srcsOf_cons]
    by_cases h : x = tgt
    · subst h; rw [if_pos rfl, if_pos rfl]; simp [srcsOf]
    · rw [if_neg (fun he => h he.symm), if_neg h]
  | cons kv ps ih =>
    simp only [List.map_cons, List.mem_cons, not_or] at hnokey
    rw [List.cons_append, srcsOf_cons, srcsOf_cons]
    by_cases hx : kv.1 = x
    · rw [if_pos hx, if_pos hx, if_neg (fun he : x = tgt => hnokey.1 (hx.trans he).symm)]
    · rw [if_neg hx, if_neg hx, ih hnokey.2]

/-- `addParentEdge` appends to exactly the matching key. -/
lemma srcsOf_addParentEdge (m : List (String × List String)) (tgt src x : String) :
    srcsOf (addParentEdge m tgt src) x =
      if x = tgt then srcsOf m x ++ [src] else srcsOf m x := by
  unfold addParentEdge
  by_cases hk : m.any (fun kv => decide (kv.1 = tgt))
  · rw [if_pos hk]
    have hkey : tgt ∈ m.map Prod.fst := by
      simp only [List.any_eq_true, decide_eq_true_eq] at hk
      obtain ⟨kv, hkv, he⟩ := hk
      exact he ▸ List.mem_map_of_mem Prod.fst hkv
    by_cases h : x = tgt
    · subst h; rw [if_pos rfl]; exact srcsOf_map_append_eq m x src hkey
    · rw [if_neg h]; exact srcsOf_map_append_ne m tgt src x h
  · rw [if_neg hk]
    have hnokey : tgt ∉ m.map Prod.fst := by
      simp only [List.any_eq_true, decide_eq_true_eq] at hk
      intro hx
      obtain ⟨kv, hkv, he⟩ := List.mem_map.mp hx
      exact hk ⟨kv, hkv, he⟩
    exact srcsOf_append_entry m tgt src x hnokey

/-- The entry of a unique-keyed map determines `srcsOf` at its key. -/
lemma srcsOf_of_mem (P : List (String × List String)) (hN : NodupKeys P)
    (kv : String × List String) (hm : kv ∈ P) : srcsOf P kv.1 = kv.2 := by
  induction P with
  | nil => simp at hm
  | cons hd ps ih =>
    simp only [NodupKeys, List.map_cons, List.nodup_cons] at hN
    rcases List.mem_cons.mp hm with h | h
    · subst h; rw [srcsOf_cons, if_pos rfl]
    · rw [srcsOf_cons]
      have hne : hd.1 ≠ kv.1 := by
        intro he
        exact hN.1 (he ▸ List.mem_map_of_mem Prod.fst h)
      rw [if_neg hne]
      exact ih hN.2 h


/-- The parent-map component of `build_graph` is a plain fold of
`addParentEdge` (the three components of the fold are independent). -/
lemma build_graph_fold_parents (l : List PathConfig) :
    ∀ acc : List String × List (String × List String) × List (String × List String),
      (l.foldl (fun acc p => (addNode (addNode acc.1 p.source) p.target,
          addParentEdge acc.2.1 p.target p.source,
          addParentEdge acc.2.2 p.source p.target)) acc).2.1
        = l.foldl (fun m p => addParentEdge m p.target p.source) acc.2.1 := by
  induction l with
  | nil => intro acc; rfl
  | cons p ps ih => intro acc; exact ih _

/-- The node-list component of `build_graph` is a plain fold of `addNode`
over path endpoints. -/
lemma build_graph_fold_nodes (l : List PathConfig) :
    ∀ acc : List String × List (String × List String) × List (String × List String),
      (l.foldl (fun acc p => (addNode (addNode acc.1 p.source) p.target,
          addParentEdge acc.2.1 p.target p.source,
          addParentEdge acc.2.2 p.source p.target)) acc).1
        = l.foldl (fun ns p => addNode (addNode ns p.source) p.target) acc.1 := by
  induction l with
  | nil => intro acc; rfl
  | cons p ps ih => intro acc; exact ih _

/-- Folding `addParentEdge` accumulates, per target, the sources of its
paths in order. -/
lemma srcsOf_parents_fold (l : List PathConfig) :
    ∀ (m : List (String × List String)) (x : String),
      srcsOf (l.foldl (fun m p => addParentEdge m p.target p.source) m) x
        = srcsOf m x ++
          (l.filter (fun p => decide (p.target = x))).map (fun p => p.source) := by
  induction l with
  | nil => intro m x; simp
  | cons p ps ih =>
    intro m x
    simp only [List.foldl_cons]
    rw [ih, srcsOf_addParentEdge, List.filter_cons]
    by_cases h : x = p.target
    · rw [if_pos h, if_pos (by simp [h.symm]), List.map_cons, List.append_assoc]
      rfl
    · rw [if_neg h, if_neg (by simpa using fun he => h he.symm)]

/-- The empty parent map has no sources. -/
lemma srcsOf_nil (x : String) : srcsOf [] x = [] := rfl

/-- The parent relation of the built graph is exactly the path relation:
`a ∈ srcsOf parents b` iff some path goes `a → b`. -/
lemma mem_srcsOf_build_graph (structural : StructuralConfig) (a b : String) :
    a ∈ srcsOf (build_graph structural).2.1 b ↔
      ∃ p ∈ structural.paths, p.source = a ∧ p.target = b := by
  unfold build_graph
  rw [build_graph_fold_parents, srcsOf_parents_fold, srcsOf_nil, List.nil_append]
  simp only [List.mem_map, List.mem_filter, decide_eq_true_eq]
  constructor
  · rintro ⟨p, ⟨hp, ht⟩, hs⟩
    exact ⟨p, hp, hs, ht⟩
  · rintro ⟨p, hp, hs, ht⟩
    exact ⟨p, ⟨hp, ht⟩, hs⟩

/-- `addNode` preserves duplicate-freedom. -/
lemma addNode_nodup (ns : List String) (x : String) (h : ns.Nodup) :
    (addNode ns x).Nodup := by
  unfold addNode
  split
  · exact h
  · rename_i hx
    refine List.Nodup.append h (List.nodup_singleton x) ?_
    intro y hy hy2
    simp only [List.mem_singleton] at hy2
    exact hx (hy2 ▸ hy)

/-- Membership after `addNode`. -/
lemma mem_addNode (ns : List String) (x y : String) :
    y ∈ addNode ns x ↔ y ∈ ns ∨ y = x := by
  unfold addNode
  split
  · rename_i hx
    constructor
    · exact Or.inl
    · rintro (h | rfl)
      · exact h
      · exact hx
  · simp

/-- `addNode` only grows the list. -/
lemma subset_addNode (ns : List String) (x : String) : ns ⊆ addNode ns x := by
  intro y hy
  rw [mem_addNode]
  exact Or.inl hy

/-- The inserted node is present. -/
lemma mem_addNode_self (ns : List String) (x : String) : x ∈ addNode ns x := by
  rw [mem_addNode]
  exact Or.inr rfl

/-- A fold of `addNode` preserves duplicate-freedom. -/
lemma foldl_addNode_nodup (l : List String) :
    ∀ ns : List String, ns.Nodup → (l.foldl addNode ns).Nodup := by
  induction l with
  | nil => intro ns h; exact h
  | cons a as ih => intro ns h; exact ih _ (addNode_nodup ns a h)

/-- A fold of `addNode` only grows the list. -/
lemma subset_foldl_addNode (l : List String) :
    ∀ ns : List String, ns ⊆ l.foldl addNode ns := by
  induction l with
  | nil => intro ns; exact fun y hy => hy
  | cons a as ih =>
    intro ns y hy
    exact ih (addNode ns a) (subset_addNode ns a hy)

/-- Membership in a fold of `addNode`. -/
lemma mem_foldl_addNode (l : List String) :
    ∀ (ns : List String) (x : String),
      x ∈ l.foldl addNode ns ↔ x ∈ ns ∨ x ∈ l := by
  induction l with
  | nil => intro ns x; simp
  | cons a as ih =>
    intro ns x
    simp only [List.foldl_cons, ih, mem_addNode, List.mem_cons]
    tauto

/-- Membership in the node fold over paths: a node is there iff it was
there initially or is a path endpoint. -/
lemma mem_path_nodes_fold (l : List PathConfig) :
    ∀ (ns : List String) (x : String),
      x ∈ l.foldl (fun ns p => addNode (addNode ns p.source) p.target) ns ↔
        x ∈ ns ∨ ∃ p ∈ l, x = p.source ∨ x = p.target := by
  induction l with
  | nil => intro ns x; simp
  | cons p ps ih =>
    intro ns x
    simp only [List.foldl_cons, ih, mem_addNode, List.mem_cons]
    constructor
    · rintro (((h | h) | h) | ⟨q, hq, h⟩)
      · exact Or.inl h
      · exact Or.inr ⟨p, Or.inl rfl, Or.inl h⟩
      · exact Or.inr ⟨p, Or.inl rfl, Or.inr h⟩
      · exact Or.inr ⟨q, Or.inr hq, h⟩
    · rintro (h | ⟨q, hq | hq, h⟩)
      · exact Or.inl (Or.inl (Or.inl h))
      · subst hq
        rcases h with h | h
        · exact Or.inl (Or.inl (Or.inr h))
        · exact Or.inl (Or.inr h)
      · exact Or.inr ⟨q, hq, h⟩

/-- The node fold over paths preserves duplicate-freedom. -/
lemma path_nodes_fold_nodup (l : List PathConfig) :
    ∀ ns : List String, ns.Nodup →
      (l.foldl (fun ns p => addNode (addNode ns p.source) p.target) ns).Nodup := by
  induction l with
  | nil => intro ns h; exact h
  | cons p ps ih =>
    intro ns h
    exact ih _ (addNode_nodup _ _ (addNode_nodup _ _ h))

/-- The inner fold of `inDegKeys` only grows the key list. -/
lemma subset_inDegKeys_fold (P : List (String × List String)) :
    ∀ ks : List String,
      ks ⊆ P.foldl (fun ks kv => kv.2.foldl addNode (addNode ks kv.1)) ks := by
  induction P with
  | nil => intro ks; exact fun y hy => hy
  | cons kv ps ih =>
    intro ks y hy
    refine ih _ ?_
    exact subset_foldl_addNode kv.2 (addNode ks kv.1) (subset_addNode ks kv.1 hy)

/-- The nodes are among the `in_deg` keys. -/
lemma subset_inDegKeys (nodes : List String) (P : List (String × List String)) :
    nodes ⊆ inDegKeys nodes P :=
  subset_inDegKeys_fold P nodes

/-- Every parent-map key is among the `in_deg` keys. -/
lemma key_mem_inDegKeys (nodes : List String) (P : List (String × List String)) :
    ∀ kv ∈ P, kv.1 ∈ inDegKeys nodes P := by
  unfold inDegKeys
  induction P generalizing nodes with
  | nil => intro kv h; simp at h
  | cons hd ps ih =>
    intro kv h
    rcases List.mem_cons.mp h with h | h
    · subst h
      refine subset_inDegKeys_fold ps _ ?_
      exact subset_foldl_addNode kv.2 _ (mem_addNode_self nodes kv.1)
    · exact ih _ kv h

/-- The `in_deg` key list is duplicate-free when the node list is. -/
lemma inDegKeys_nodup (nodes : List String) (P : List (String × List String))
    (h : nodes.Nodup) : (inDegKeys nodes P).Nodup := by
  unfold inDegKeys
  induction P generalizing nodes with
  | nil => exact h
  | cons kv ps ih =>
    exact ih _ (foldl_addNode_nodup kv.2 _ (addNode_nodup nodes kv.1 h))

/-- Value of the in-degree fold at a point. -/
lemma inDeg0_fold (l : List (String × List String)) :
    ∀ (f : String → Int) (x : String),
      (l.foldl (fun f kv => fun y => if y = kv.1 then f y + (kv.2.length : Int) else f y) f) x
        = f x + ((l.filter (fun kv => decide (kv.1 = x))).map
            (fun kv => (kv.2.length : Int))).sum := by
  induction l with
  | nil => intro f x; simp
  | cons kv ps ih =>
    intro f x
    simp only [List.foldl_cons]
    rw [ih, List.filter_cons]
    by_cases h : x = kv.1
    · rw [if_pos h, if_pos (by simp [h]), List.map_cons, List.sum_cons]
      ring
    · have hd : ¬ (decide (kv.1 = x) = true) := by
        simp only [decide_eq_true_eq]
        exact fun he => h he.symm
      rw [if_neg h, if_neg hd]

/-- In a unique-keyed map, the entries at key `x` are exactly `[kv]` for
the one entry `kv` with that key. -/
lemma filter_key_of_mem (P : List (String × List String)) (hN : NodupKeys P)
    (kv : String × List String) (hm : kv ∈ P) :
    P.filter (fun kv2 => decide (kv2.1 = kv.1)) = [kv] := by
  induction P with
  | nil => simp at hm
  | cons hd ps ih =>
    simp only [NodupKeys, List.map_cons, List.nodup_cons] at hN
    rcases List.mem_cons.mp hm with h | h
    · subst h
      rw [List.filter_cons, if_pos (by simp)]
      have : ps.filter (fun kv2 => decide (kv2.1 = kv.1)) = [] := by
        rw [List.filter_eq_nil_iff]
        intro q hq
        simp only [decide_eq_true_eq]
        intro he
        exact hN.1 (he ▸ List.mem_map_of_mem Prod.fst hq)
      rw [this]
    · rw [List.filter_cons]
      have hne : hd.1 ≠ kv.1 := by
        intro he
        exact hN.1 (he ▸ List.mem_map_of_mem Prod.fst h)
      rw [if_neg (by simpa using hne)]
      exact ih hN.2 h

/-- With unique keys, the initial in-degree of `x` is the length of its
source list. -/
lemma inDeg0_eq (P : List (String × List String)) (hN : NodupKeys P)
    (x : String) : inDeg0 P x = ((srcsOf P x).length : Int) := by
  unfold inDeg0
  rw [inDeg0_fold]
  by_cases hk : x ∈ P.map Prod.fst
  · obtain ⟨kv, hkv, he⟩ := List.mem_map.mp hk
    subst he
    rw [filter_key_of_mem P hN kv hkv, srcsOf_of_mem P hN kv hkv]
    simp
  · rw [srcsOf_eq_nil_of_not_key P x hk]
    have : P.filter (fun kv2 => decide (kv2.1 = x)) = [] := by
      rw [List.filter_eq_nil_iff]
      intro q hq
      simp only [decide_eq_true_eq]
      intro he
      exact hk (he ▸ List.mem_map_of_mem Prod.fst hq)
    rw [this]
    simp

/-- Keys of `addParentEdge`. -/
lemma addParentEdge_keys (m : List (String × List String)) (tgt src : String) :
    (addParentEdge m tgt src).map Prod.fst =
      if tgt ∈ m.map Prod.fst then m.map Prod.fst else m.map Prod.fst ++ [tgt] := by
  unfold addParentEdge
  by_cases hk : m.any (fun kv => decide (kv.1 = tgt))
  · rw [if_pos hk]
    have hkey : tgt ∈ m.map Prod.fst := by
      simp only [List.any_eq_true, decide_eq_true_eq] at hk
      obtain ⟨kv, hkv, he⟩ := hk
      exact he ▸ List.mem_map_of_mem Prod.fst hkv
    rw [if_pos hkey, List.map_map]
    apply List.map_congr_left
    intro kv _
    by_cases h : kv.1 = tgt <;> simp [h]
  · rw [if_neg hk]
    have hkey : tgt ∉ m.map Prod.fst := by
      simp only [List.any_eq_true, decide_eq_true_eq] at hk
      intro hx
      obtain ⟨kv, hkv, he⟩ := List.mem_map.mp hx
      exact hk ⟨kv, hkv, he⟩
    rw [if_neg hkey]
    simp

/-- The parent map built from the paths has unique keys. -/
lemma parents_fold_nodupKeys (l : List PathConfig) :
    ∀ m : List (String × List String), NodupKeys m →
      NodupKeys (l.foldl (fun m p => addParentEdge m p.target p.source) m) := by
  induction l with
  | nil => intro m h; exact h
  | cons p ps ih =>
    intro m h
    refine ih _ ?_
    unfold NodupKeys
    rw [addParentEdge_keys]
    split
    · exact h
    · rename_i hk
      refine List.Nodup.append h (List.nodup_singleton _) ?_
      intro y hy hy2
      simp only [List.mem_singleton] at hy2
      exact hk (hy2 ▸ hy)

/-- `processDec` decrements exactly the in-degrees of the targets whose
source lists contain the popped node (unique keys). -/
lemma processDec_deg (u : String) :
    ∀ (P : List (String × List String)) (deg : String → Int), NodupKeys P →
      ∀ x, (processDec u P deg).1 x =
        if u ∈ srcsOf P x then deg x - 1 else deg x := by
  intro P
  induction P with
  | nil => intro deg _ x; simp [processDec, srcsOf_nil]
  | cons kv ps ih =>
    intro deg hN x
    simp only [NodupKeys, List.map_cons, List.nodup_cons] at hN
    by_cases hx : kv.1 = x
    · have hps : srcsOf ps x = [] :=
        srcsOf_eq_nil_of_not_key ps x (fun hm => hN.1 (hx ▸ hm))
      by_cases hu : u ∈ kv.2
      · simp only [processDec, if_pos hu]
        rw [ih _ hN.2, srcsOf_cons, hps, if_pos hx, if_pos hu]
        simp only [List.not_mem_nil, if_false]
        rw [if_pos hx.symm, hx]
      · simp only [processDec, if_neg hu]
        rw [ih _ hN.2, srcsOf_cons, hps, if_pos hx, if_neg hu]
        simp
    · have hxx : ¬ (x = kv.1) := fun he => hx he.symm
      by_cases hu : u ∈ kv.2
      · simp only [processDec, if_pos hu]
        rw [ih _ hN.2, srcsOf_cons, if_neg hx]
        by_cases hs : u ∈ srcsOf ps x
        · rw [if_pos hs, if_pos hs, if_neg hxx]
        · rw [if_neg hs, if_neg hs, if_neg hxx]
      · simp only [processDec, if_neg hu]
        rw [ih _ hN.2, srcsOf_cons, if_neg hx]

/-- The nodes `processDec` enqueues: the targets containing the popped
node among their sources whose in-degree was exactly one (unique keys). -/
lemma processDec_newly (u : String) :
    ∀ (P : List (String × List String)) (deg : String → Int), NodupKeys P →
      (processDec u P deg).2 =
        ((P.filter (fun kv => decide (u ∈ kv.2))).map Prod.fst).filter
          (fun t => decide (deg t - 1 = 0)) := by
  intro P
  induction P with
  | nil => intro deg _; simp [processDec]
  | cons kv ps ih =>
    intro deg hN
    simp only [NodupKeys, List.map_cons, List.nodup_cons] at hN
    by_cases hu : u ∈ kv.2
    · simp only [processDec, if_pos hu]
      rw [ih _ hN.2]
      have hcong : ∀ t ∈ (ps.filter (fun kv => decide (u ∈ kv.2))).map Prod.fst,
          decide ((if t = kv.1 then deg kv.1 - 1 else deg t) - 1 = 0)
            = decide (deg t - 1 = 0) := by
        intro t ht
        obtain ⟨q, hq, he⟩ := List.mem_map.mp ht
        have hqmem : t ∈ ps.map Prod.fst :=
          he ▸ List.mem_map_of_mem Prod.fst (List.mem_of_mem_filter hq)
        have hne : t ≠ kv.1 := fun heq => hN.1 (heq ▸ hqmem)
        simp [if_neg hne]
      rw [List.filter_congr hcong, List.filter_cons]
      rw [if_pos (show decide (u ∈ kv.2) = true by simpa using hu)]
      rw [List.map_cons, List.filter_cons]
      by_cases hz : deg kv.1 - 1 = 0
      · rw [if_pos hz, if_pos (show decide (deg kv.1 - 1 = 0) = true by simpa using hz)]
        rfl
      · rw [if_neg hz, if_neg (show ¬ (decide (deg kv.1 - 1 = 0) = true) by simpa using hz)]
        rfl
    · simp only [processDec, if_neg hu]
      rw [ih _ hN.2, List.filter_cons]
      rw [if_neg (show ¬ (decide (u ∈ kv.2) = true) by simpa using hu)]

/-- The enqueued nodes are duplicate-free (unique keys). -/
lemma processDec_newly_nodup (u : String) (P : List (String × List String))
    (deg : String → Int) (hN : NodupKeys P) : (processDec u P deg).2.Nodup := by
  rw [processDec_newly u P deg hN]
  refine List.Nodup.filter _ ?_
  refine List.Nodup.sublist ?_ hN
  exact List.Sublist.map Prod.fst (List.filter_sublist P)

/-- What membership in the enqueued list tells us (unique keys). -/
lemma processDec_newly_mem (u : String) (P : List (String × List String))
    (deg : String → Int) (hN : NodupKeys P) (t : String)
    (ht : t ∈ (processDec u P deg).2) :
    u ∈ srcsOf P t ∧ deg t = 1 ∧ t ∈ P.map Prod.fst := by
  rw [processDec_newly u P deg hN] at ht
  obtain ⟨ht1, ht2⟩ := List.mem_filter.mp ht
  obtain ⟨kv, hkv, he⟩ := List.mem_map.mp ht1
  obtain ⟨hkvP, hkvu⟩ := List.mem_filter.mp hkv
  subst he
  refine ⟨?_, ?_, List.mem_map_of_mem Prod.fst hkvP⟩
  · rw [srcsOf_of_mem P hN kv hkvP]
    simpa using hkvu
  · have : deg kv.1 - 1 = 0 := by simpa using ht2
    omega

/-- `processDec` never increases an in-degree (unique keys). -/
lemma processDec_deg_le (u : String) (P : List (String × List String))
    (deg : String → Int) (hN : NodupKeys P) (x : String) :
    (processDec u P deg).1 x ≤ deg x := by
  rw [processDec_deg u P deg hN x]
  by_cases h : u ∈ srcsOf P x
  · rw [if_pos h]; omega
  · rw [if_neg h]

/-- Filtering out the members of `order ++ [u]` from a duplicate-free list
that does not contain `u` filters the same elements as `order` alone. -/
lemma filter_not_mem_append_of_not_mem (l order : List String) (u : String)
    (hul : u ∉ l) :
    l.filter (fun s => decide (s ∉ (order ++ [u]))) =
      l.filter (fun s => decide (s ∉ order)) := by
  apply List.filter_congr
  intro s hs
  have hne : s ≠ u := fun he => hul (he ▸ hs)
  simp [List.mem_append, hne]

/-- When `u` occurs in the duplicate-free list `l` and not in `order`,
filtering out `order ++ [u]` keeps exactly one element fewer than
filtering out `order`. -/
lemma filter_not_mem_append_of_mem (l : List String) :
    ∀ (order : List String) (u : String), l.Nodup → u ∈ l → u ∉ order →
      (l.filter (fun s => decide (s ∉ (order ++ [u])))).length + 1 =
        (l.filter (fun s => decide (s ∉ order))).length := by
  induction l with
  | nil => intro order u _ h; simp at h
  | cons a as ih =>
    intro order u hnd hul huo
    simp only [List.nodup_cons] at hnd
    rcases List.mem_cons.mp hul with h | h
    · have hau : a = u := h.symm
      rw [List.filter_cons, List.filter_cons]
      have h1 : ¬ (a ∉ (order ++ [u])) := by simp [hau]
      have h2 : a ∉ order := hau ▸ huo
      rw [if_neg (by simpa using h1), if_pos (by simpa using h2)]
      rw [filter_not_mem_append_of_not_mem as order u (hau ▸ hnd.1)]
      simp
    · rw [List.filter_cons, List.filter_cons]
      have hne : a ≠ u := fun he => hnd.1 (he ▸ h)
      have hiff : (a ∉ (order ++ [u])) ↔ (a ∉ order) := by
        simp [List.mem_append, hne]
      by_cases ha : a ∉ order
      · rw [if_pos (by simpa using hiff.mpr ha), if_pos (by simpa using ha)]
        simp only [List.length_cons]
        have := ih order u hnd.2 h huo
        omega
      · rw [if_neg (by simpa using fun hc => ha (hiff.mp hc)),
          if_neg (by simpa using ha)]
        exact ih order u hnd.2 h huo

/-- `(l1 ++ l2).take i = l1.take i` for `i ≤ |l1|`. -/
lemma take_append_le {α : Type} (l2 : List α) :
    ∀ (l1 : List α) (i : Nat), i ≤ l1.length →
      (l1 ++ l2).take i = l1.take i := by
  intro l1
  induction l1 with
  | nil =>
    intro i h
    have h0 : i = 0 := Nat.le_zero.mp h
    subst h0
    simp
  | cons a as ih =>
    intro i h
    cases i with
    | zero => simp
    | succ i =>
      simp only [List.cons_append, List.take_succ_cons]
      rw [ih i (by simpa using h)]

/-- An element of `l.take i` sits at an index below `i`. -/
lemma mem_take_get {α : Type} (l : List α) :
    ∀ (i : Nat) (x : α), x ∈ l.take i →
      ∃ j, ∃ hj : j < l.length, j < i ∧ l.get ⟨j, hj⟩ = x := by
  induction l with
  | nil => intro i x hx; simp at hx
  | cons a as ih =>
    intro i x hx
    cases i with
    | zero => simp at hx
    | succ i =>
      rw [List.take_succ_cons] at hx
      rcases List.mem_cons.mp hx with h | h
      · exact ⟨0, Nat.succ_pos _, Nat.succ_pos _, h.symm⟩
      · obtain ⟨j, hj, hlt, hget⟩ := ih i x h
        exact ⟨j + 1, Nat.succ_lt_succ hj, Nat.succ_lt_succ hlt, by simpa using hget⟩

/-- The invariant maintained by the while-loop of `_topological_sort`:
the in-degree of every node dominates the count of its not-yet-emitted
distinct sources; the emitted list and queue are jointly duplicate-free,
drawn from the key set, with non-positive in-degrees; and every emitted
node is preceded by all of its sources. -/
structure KahnInvS (P : List (String × List String)) (ks : List String)
    (deg : String → Int) (queue order : List String) : Prop where
  count_le : ∀ x,
    (((srcsOf P x).dedup.filter (fun s => decide (s ∉ order))).length : Int) ≤ deg x
  nodup : (order ++ queue).Nodup
  deg_nonpos : ∀ x ∈ order ++ queue, deg x ≤ 0
  ordered : ∀ i (h : i < order.length),
    ∀ s ∈ srcsOf P (order.get ⟨i, h⟩), s ∈ order.take i
  mem_ks : ∀ x ∈ order ++ queue, x ∈ ks

/-- What the loop guarantees about its result. -/
def KahnOutS (P : List (String × List String)) (ks res : List String) : Prop :=
  res.Nodup ∧ (∀ x ∈ res, x ∈ ks) ∧
  (∀ i (h : i < res.length), ∀ s ∈ srcsOf P (res.get ⟨i, h⟩), s ∈ res.take i)

/-- The invariant restricted to the emitted list. -/
lemma kahnOut_of_inv {P ks deg queue order} (h : KahnInvS P ks deg queue order) :
    KahnOutS P ks order := by
  refine ⟨?_, ?_, h.ordered⟩
  · exact h.nodup.of_append_left
  · intro x hx
    exact h.mem_ks x (List.mem_append_left queue hx)

/-- One loop iteration preserves the invariant. -/
lemma kahnInv_step (P : List (String × List String)) (ks : List String)
    (hN : NodupKeys P) (hkeys : ∀ kv ∈ P, kv.1 ∈ ks)
    (deg : String → Int) (u : String) (rest order : List String)
    (hInv : KahnInvS P ks deg (u :: rest) order) :
    KahnInvS P ks (processDec u P deg).1
      (rest ++ (processDec u P deg).2) (order ++ [u]) := by
  have hnd := hInv.nodup
  rw [List.append_cons] at hnd
  have huq : u ∈ order ++ u :: rest := by simp
  have huo : u ∉ order := by
    have := (List.nodup_append.mp hInv.nodup).2.2
    intro hmem
    exact this hmem (List.mem_cons_self u rest)
  constructor
  · -- count_le
    intro x
    rw [processDec_deg u P deg hN x]
    have hcnt := hInv.count_le x
    have hlnd : ((srcsOf P x).dedup).Nodup := List.nodup_dedup _
    by_cases hm : u ∈ srcsOf P x
    · have hml : u ∈ (srcsOf P x).dedup := List.mem_dedup.mpr hm
      have heq := filter_not_mem_append_of_mem (srcsOf P x).dedup order u hlnd hml huo
      rw [if_pos hm]
      omega
    · have hml : u ∉ (srcsOf P x).dedup := fun h => hm (List.mem_dedup.mp h)
      rw [if_neg hm,
        filter_not_mem_append_of_not_mem (srcsOf P x).dedup order u hml]
      exact hcnt
  · -- nodup
    have hnewnd := processDec_newly_nodup u P deg hN
    have hdisj : ∀ t ∈ (processDec u P deg).2, t ∉ (order ++ [u]) ++ rest := by
      intro t ht hmem
      have h1 := (processDec_newly_mem u P deg hN t ht).2.1
      have h2 : deg t ≤ 0 := by
        refine hInv.deg_nonpos t ?_
        rw [List.append_cons]
        exact hmem
      omega
    have : (((order ++ [u]) ++ rest) ++ (processDec u P deg).2).Nodup := by
      refine List.Nodup.append hnd hnewnd ?_
      intro t ht1 ht2
      exact hdisj t ht2 ht1
    simpa [List.append_assoc] using this
  · -- deg_nonpos
    intro x hx
    rcases List.mem_append.mp hx with hx | hx
    · have : deg x ≤ 0 := by
        refine hInv.deg_nonpos x ?_
        rcases List.mem_append.mp hx with h | h
        · exact List.mem_append_left _ h
        · simp only [List.mem_singleton] at h
          exact h ▸ huq
      have := processDec_deg_le u P deg hN x
      omega
    · rcases List.mem_append.mp hx with hx | hx
      · have : deg x ≤ 0 := by
          refine hInv.deg_nonpos x ?_
          exact List.mem_append_right _ (List.mem_cons_of_mem u hx)
        have := processDec_deg_le u P deg hN x
        omega
      · obtain ⟨hsrc, hone, _⟩ := processDec_newly_mem u P deg hN x hx
        rw [processDec_deg u P deg hN x, if_pos hsrc]
        omega
  · -- ordered
    intro i h s hs
    rw [List.length_append, List.length_singleton] at h
    by_cases hi : i < order.length
    · have hget : (order ++ [u]).get ⟨i, by simpa using h⟩ = order.get ⟨i, hi⟩ :=
        List.get_append i hi
      rw [hget] at hs
      have := hInv.ordered i hi s hs
      rw [take_append_le [u] order i (Nat.le_of_lt hi)]
      exact this
    · have hieq : i = order.length := by omega
      subst hieq
      have hget : (order ++ [u]).get ⟨order.length, by simp⟩ = u := by
        simp
      rw [hget] at hs
      -- all sources of u are already emitted
      have hcnt := hInv.count_le u
      have hdeg : deg u ≤ 0 := hInv.deg_nonpos u huq
      have hzero :
          ((srcsOf P u).dedup.filter (fun s => decide (s ∉ order))).length = 0 := by
        omega
      have hnilf := List.length_eq_zero.mp hzero
      have hsm : s ∈ (srcsOf P u).dedup := List.mem_dedup.mpr hs
      have : s ∈ order := by
        by_contra hns
        have : s ∈ (srcsOf P u).dedup.filter (fun s => decide (s ∉ order)) :=
          List.mem_filter.mpr ⟨hsm, by simpa using hns⟩
        rw [hnilf] at this
        simp at this
      rw [take_append_le [u] order order.length (Nat.le_refl _), List.take_length]
      exact this
  · -- mem_ks
    intro x hx
    rcases List.mem_append.mp hx with hx | hx
    · rcases List.mem_append.mp hx with h | h
      · exact hInv.mem_ks x (List.mem_append_left _ h)
      · simp only [List.mem_singleton] at h
        exact h ▸ hInv.mem_ks u huq
    · rcases List.mem_append.mp hx with h | h
      · exact hInv.mem_ks x (List.mem_append_right _ (List.mem_cons_of_mem u h))
      · obtain ⟨_, _, hkey⟩ := processDec_newly_mem u P deg hN x h
        obtain ⟨kv, hkv, he⟩ := List.mem_map.mp hkey
        exact he ▸ hkeys kv hkv

/-- Whatever the fuel, the loop's result satisfies the output facts. -/
lemma kahnLoop_sound (P : List (String × List String)) (ks : List String)
    (hN : NodupKeys P) (hkeys : ∀ kv ∈ P, kv.1 ∈ ks) :
    ∀ (fuel : Nat) (queue : List String) (deg : String → Int) (order : List String),
      KahnInvS P ks deg queue order →
      KahnOutS P ks (kahnLoop P fuel queue deg order) := by
  intro fuel
  induction fuel with
  | zero => intro queue deg order hInv; exact kahnOut_of_inv hInv
  | succ fuel ih =>
    intro queue deg order hInv
    cases queue with
    | nil => exact kahnOut_of_inv hInv
    | cons u rest =>
      show KahnOutS P ks (kahnLoop P fuel _ _ _)
      exact ih _ _ _ (kahnInv_step P ks hN hkeys deg u rest order hInv)

/-- The invariant holds at loop entry. -/
lemma kahnInv_init (P : List (String × List String)) (nodes : List String)
    (hN : NodupKeys P) (hnd : nodes.Nodup) :
    KahnInvS P (inDegKeys nodes P) (inDeg0 P)
      ((inDegKeys nodes P).filter (fun n => decide (inDeg0 P n = 0))) [] := by
  constructor
  · intro x
    rw [inDeg0_eq P hN x]
    have h1 : ((srcsOf P x).dedup.filter (fun s => decide (s ∉ ([] : List String)))).length
        ≤ (srcsOf P x).dedup.length := List.length_filter_le _ _
    have h2 : (srcsOf P x).dedup.length ≤ (srcsOf P x).length :=
      List.Sublist.length_le (List.dedup_sublist _)
    omega
  · simp only [List.nil_append]
    exact List.Nodup.filter _ (inDegKeys_nodup nodes P hnd)
  · intro x hx
    simp only [List.nil_append] at hx
    have := (List.mem_filter.mp hx).2
    simp only [decide_eq_true_eq] at this
    omega
  · intro i h
    simp at h
  · intro x hx
    simp only [List.nil_append] at hx
    exact List.mem_of_mem_filter hx

/-- Every element of a chain has a predecessor within the chain. -/
lemma chain_pred {R : String → String → Prop} :
    ∀ (v : String) (l : List String), List.Chain R v l →
      ∀ x ∈ l, ∃ p ∈ v :: l, R p x := by
  intro v l h
  induction h with
  | nil => intro x hx; simp at hx
  | @cons a b bs hR _ ih =>
    intro x hx
    rcases List.mem_cons.mp hx with h | h
    · exact ⟨a, List.mem_cons_self a _, h ▸ hR⟩
    · obtain ⟨p, hp, hRp⟩ := ih x h
      exact ⟨p, List.mem_cons_of_mem a hp, hRp⟩

/-- On a closed chain every node, the head included, has a predecessor
within the chain. -/
lemma cycle_pred {R : String → String → Prop} (v : String) (l : List String)
    (hch : List.Chain R v l)
    (hcl : R ((v :: l).getLast (List.cons_ne_nil v l)) v) :
    ∀ x ∈ v :: l, ∃ p ∈ v :: l, R p x := by
  intro x hx
  rcases List.mem_cons.mp hx with h | h
  · exact ⟨(v :: l).getLast (List.cons_ne_nil v l), List.getLast_mem _, h ▸ hcl⟩
  · exact chain_pred v l hch x h

/-- A list in which every element is preceded by all of its sources
cannot contain a directed cycle. -/
lemma ordered_no_cycle (P : List (String × List String)) (res : List String)
    (hord : ∀ i (h : i < res.length), ∀ s ∈ srcsOf P (res.get ⟨i, h⟩), s ∈ res.take i)
    (v : String) (l : List String)
    (hch : List.Chain (fun a b => a ∈ srcsOf P b) v l)
    (hcl : (v :: l).getLast (List.cons_ne_nil v l) ∈ srcsOf P v)
    (hin : ∀ x ∈ v :: l, x ∈ res) : False := by
  have hpred := cycle_pred v l hch hcl
  have main : ∀ n, ∀ x ∈ v :: l, ∀ j, ∀ hj : j < res.length,
      res.get ⟨j, hj⟩ = x → j < n → False := by
    intro n
    induction n with
    | zero => intro x _ j _ _ h; omega
    | succ n ihn =>
      intro x hx j hj hget hlt
      obtain ⟨p, hp, hps⟩ := hpred x hx
      have hptake : p ∈ res.take j := hord j hj p (by rw [hget]; exact hps)
      obtain ⟨j2, hj2, hlt2, hget2⟩ := mem_take_get res j p hptake
      exact ihn p hp j2 hj2 hget2 (by omega)
  have hv : v ∈ res := hin v (List.mem_cons_self v l)
  obtain ⟨⟨j, hj⟩, hget⟩ := List.mem_iff_get.mp hv
  exact main (j + 1) v (List.mem_cons_self v l) j hj hget (Nat.lt_succ_self j)

/-- Kahn's algorithm raises the cycle error whenever the parent relation
contains a directed cycle through the key set. -/
lemma topological_sort_cycle_error (nodes : List String)
    (P : List (String × List String)) (hN : NodupKeys P) (hnd : nodes.Nodup)
    (v : String) (l : List String)
    (hch : List.Chain (fun a b => a ∈ srcsOf P b) v l)
    (hcl : (v :: l).getLast (List.cons_ne_nil v l) ∈ srcsOf P v)
    (hin : ∀ x ∈ v :: l, x ∈ inDegKeys nodes P) :
    topological_sort nodes P = .error cycleMsg := by
  unfold topological_sort
  have hout := kahnLoop_sound P (inDegKeys nodes P) hN
    (fun kv hkv => key_mem_inDegKeys nodes P kv hkv)
    ((inDegKeys nodes P).length + 1)
    ((inDegKeys nodes P).filter (fun n => decide (inDeg0 P n = 0)))
    (inDeg0 P) [] (kahnInv_init P nodes hN hnd)
  obtain ⟨hnodup, hsub, hord⟩ := hout
  have hne : (kahnLoop P ((inDegKeys nodes P).length + 1)
      ((inDegKeys nodes P).filter (fun n => decide (inDeg0 P n = 0)))
      (inDeg0 P) []).length ≠ (inDegKeys nodes P).length := by
    intro hlen
    have hksnd : (inDegKeys nodes P).Nodup := inDegKeys_nodup nodes P hnd
    set res := kahnLoop P ((inDegKeys nodes P).length + 1)
      ((inDegKeys nodes P).filter (fun n => decide (inDeg0 P n = 0)))
      (inDeg0 P) [] with hres
    have hfs : res.toFinset ⊆ (inDegKeys nodes P).toFinset := by
      intro x hx
      exact List.mem_toFinset.mpr (hsub x (List.mem_toFinset.mp hx))
    have hcard : (inDegKeys nodes P).toFinset.card ≤ res.toFinset.card := by
      rw [List.toFinset_card_of_nodup hnodup, List.toFinset_card_of_nodup hksnd, hlen]
    have hfeq := Finset.eq_of_subset_of_card_le hfs hcard
    have hall : ∀ x ∈ inDegKeys nodes P, x ∈ res := by
      intro x hx
      exact List.mem_toFinset.mp (hfeq ▸ List.mem_toFinset.mpr hx)
    exact ordered_no_cycle P res hord v l hch hcl (fun x hx => hall x (hin x hx))
  rw [if_pos hne]

/-! ## Claim C2 -/

/-- The directed-edge relation of a path set. -/
def EdgePath (paths : List PathConfig) (a b : String) : Prop :=
  ∃ p ∈ paths, p.source = a ∧ p.target = b

/-- The path set contains a directed cycle: a chain of edges from some
node `v` through `l` whose last node has an edge back to `v` (a self-loop
is the case `l = []`). -/
def HasCycle (paths : List PathConfig) : Prop :=
  ∃ (v : String) (l : List String),
    List.Chain (EdgePath paths) v l ∧
    EdgePath paths ((v :: l).getLast (List.cons_ne_nil v l)) v

/-- On a list of genuine construct objects the `cons_map` comprehension
succeeds and pairs every construct with its name. -/
lemma mapM_pyNamePair (cs : List ConstructConfig) :
    (cs.map PyVal.construct).mapM pyNamePair =
      Except.ok (cs.map (fun c => (c.name, c))) := by
  induction cs with
  | nil => rfl
  | cons c cs ih =>
    simp only [List.map_cons, List.mapM_cons, pyNamePair, ih]
    rfl

/-- C2: for every structural configuration whose paths reference only
declared constructs and whose path set contains a directed cycle,
`simulate_structural_latents` raises the cycle error -- the caller
receives `Except.error`, never a (partial) latent matrix.  (The detection
site is the emitted-count check of the Kahn sort, `_topological_sort`.) -/
theorem simulate_structural_latents_cycle_error
    (num : NumModel) (seedStream : Int → Strm)
    (constructs : List ConstructConfig) (sample : SampleConfig)
    (structural : StructuralConfig) (ent : Strm)
    (hdecl : ∀ p ∈ structural.paths,
      (∃ c ∈ constructs, c.name = p.source) ∧ (∃ c ∈ constructs, c.name = p.target))
    (hcyc : HasCycle structural.paths) :
    simulate_structural_latents num seedStream (constructs.map PyVal.construct)
      sample structural ent = .error cycleMsg := by
  obtain ⟨v, l, hch, hcl⟩ := hcyc
  have hcl0 := hcl
  obtain ⟨p0, hp0, _⟩ := hcl0
  have hpe : structural.paths.isEmpty = false := by
    cases h : structural.paths with
    | nil => rw [h] at hp0; simp at hp0
    | cons q qs => rfl
  -- the parent map of the built graph
  have hN : NodupKeys (build_graph structural).2.1 := by
    unfold build_graph
    rw [build_graph_fold_parents]
    exact parents_fold_nodupKeys structural.paths [] (by simp [NodupKeys])
  have hnodes0 : (build_graph structural).1.Nodup := by
    unfold build_graph
    rw [build_graph_fold_nodes]
    exact path_nodes_fold_nodup structural.paths [] List.nodup_nil
  have hmem_nodes0 : ∀ x, (∃ p ∈ structural.paths, x = p.source ∨ x = p.target) →
      x ∈ (build_graph structural).1 := by
    intro x hx
    unfold build_graph
    rw [build_graph_fold_nodes]
    exact (mem_path_nodes_fold structural.paths [] x).mpr (Or.inr hx)
  -- the missing-construct scan finds nothing
  have hfind : (build_graph structural).1.find?
      (fun n => !((constructs.map (fun c => (c.name, c))).any
        (fun kv => decide (kv.1 = n)))) = none := by
    rw [List.find?_eq_none]
    intro n hn
    have hep : ∃ p ∈ structural.paths, n = p.source ∨ n = p.target := by
      have := (mem_path_nodes_fold structural.paths [] n).mp
        (by unfold build_graph at hn; rwa [build_graph_fold_nodes] at hn)
      simpa using this
    obtain ⟨p, hp, hnp⟩ := hep
    have hc : ∃ c ∈ constructs, c.name = n := by
      rcases hnp with h | h
      · obtain ⟨c, hcm, hcn⟩ := (hdecl p hp).1
        exact ⟨c, hcm, h ▸ hcn⟩
      · obtain ⟨c, hcm, hcn⟩ := (hdecl p hp).2
        exact ⟨c, hcm, h ▸ hcn⟩
    obtain ⟨c, hcm, hcn⟩ := hc
    simp only [Bool.not_eq_true', Bool.not_eq_false]
    rw [List.any_eq_true]
    exact ⟨(c.name, c), List.mem_map_of_mem _ hcm, by simpa using hcn⟩
  -- the extended node list and its properties
  have hnodes : ((constructs.map (fun c => (c.name, c))).foldl
      (fun ns kv => addNode ns kv.1) (build_graph structural).1).Nodup := by
    rw [← List.foldl_map Prod.fst addNode]
    exact foldl_addNode_nodup _ _ hnodes0
  -- the topological sort raises
  have hedge : ∀ a b, EdgePath structural.paths a b →
      a ∈ srcsOf (build_graph structural).2.1 b := by
    intro a b hab
    exact (mem_srcsOf_build_graph structural a b).mpr hab
  have htarget : ∀ x ∈ v :: l, ∃ p ∈ structural.paths, x = p.target := by
    intro x hx
    obtain ⟨q, _, hq⟩ := cycle_pred v l hch hcl x hx
    obtain ⟨p, hp, _, ht⟩ := hq
    exact ⟨p, hp, ht.symm⟩
  have hin : ∀ x ∈ v :: l,
      x ∈ inDegKeys ((constructs.map (fun c => (c.name, c))).foldl
        (fun ns kv => addNode ns kv.1) (build_graph structural).1)
        (build_graph structural).2.1 := by
    intro x hx
    obtain ⟨p, hp, ht⟩ := htarget x hx
    refine subset_inDegKeys _ _ ?_
    rw [← List.foldl_map Prod.fst addNode]
    refine subset_foldl_addNode _ _ ?_
    exact hmem_nodes0 x ⟨p, hp, Or.inr ht⟩
  have hsort := topological_sort_cycle_error
    ((constructs.map (fun c => (c.name, c))).foldl
      (fun ns kv => addNode ns kv.1) (build_graph structural).1)
    (build_graph structural).2.1 hN hnodes v l
    (hch.imp (fun a b hab => hedge a b hab))
    (hedge _ _ hcl) hin
  simp only [simulate_structural_latents, mapM_pyNamePair, hpe,
    Bool.false_eq_true, if_false, hfind, hsort]

/-! ## Claim C4 -/

/-- The heuristic the SPECIFICATION describes:
`clip(nrm/(1+nrm), 0.10, 0.70)` with `nrm` the Euclidean norm of the
incoming coefficient vector. -/
noncomputable def specHeuristicR2 (betas : List ℚ) : ℝ :=
  let nrm := Real.sqrt ((betas.map (fun b => ((b : ℝ)) ^ 2)).sum)
  min (7 / 10) (max (1 / 10) (nrm / (1 + nrm)))

/-- C4 is false as stated: for the single incoming coefficient 1/2 the
Euclidean norm is 1/2, so the specified heuristic gives
`clip((1/2)/(3/2)) = 1/3`, while the code computes with the SQUARED norm:
`clip((1/4)/(5/4)) = 1/5`. -/
theorem heuristicR2_differs_from_spec :
    ((heuristicR2 [1 / 2] : ℚ) : ℝ) ≠ specHeuristicR2 [1 / 2] ∧
    heuristicR2 [1 / 2] = 1 / 5 ∧ specHeuristicR2 [1 / 2] = 1 / 3 := by
  have h1 : heuristicR2 [1 / 2] = 1 / 5 := by
    norm_num [heuristicR2, clipQ]
  have h2 : specHeuristicR2 [1 / 2] = 1 / 3 := by
    unfold specHeuristicR2
    have hs : ((([(1 : ℚ) / 2].map (fun b => ((b : ℝ)) ^ 2)).sum) : ℝ) = (1 / 2 : ℝ) ^ 2 := by
      norm_num
    rw [hs, Real.sqrt_sq (by norm_num : (0 : ℝ) ≤ 1 / 2)]
    norm_num
  refine ⟨?_, h1, h2⟩
  rw [h1, h2]
  norm_num

/-- C4 (amended): whenever a construct has no explicit R² target, or a
target `<= 0` (the code first clips the target into `[0, 0.95]`),
`decideR2` -- the value `simulate_structural_latents` mixes the predictor
and noise with -- is the heuristic
`clip(‖β‖²/(1+‖β‖²), 0.10, 0.70)`, i.e. the SQUARED Euclidean norm of the
incoming coefficient vector over one plus the same, not the norm itself. -/
theorem decideR2_uses_squared_norm (r2_targets : List (String × ℚ))
    (name : String) (betas : List ℚ)
    (h : (lookupQ r2_targets name).getD 0 ≤ 0) :
    decideR2 r2_targets name betas =
      clipQ ((betas.map (fun b => b ^ 2)).sum /
        (1 + (betas.map (fun b => b ^ 2)).sum)) (1 / 10) (7 / 10) := by
  unfold decideR2
  have hclip : clipQ ((lookupQ r2_targets name).getD 0) 0 (95 / 100) ≤ 0 := by
    unfold clipQ
    rw [max_eq_left h]
    exact le_of_eq (min_eq_right (by norm_num))
  rw [if_pos hclip]
  rfl

/-- Witness for the amended C4: no targets at all, single β = 1/2, gives
r² = (1/4)/(5/4) = 1/5 (inside the clip bounds). -/
theorem decideR2_squared_norm_witness : decideR2 [] "BI" [1 / 2] = 1 / 5 := by
  have h := decideR2_uses_squared_norm [] "BI" [1 / 2] (by simp [lookupQ])
  rw [h]
  norm_num [clipQ]

/-- Construct A of the cycle witness. -/
def consA : ConstructConfig := { name := "A", n_items := 3 }

/-- Construct B of the cycle witness. -/
def consB : ConstructConfig := { name := "B", n_items := 3 }

/-- The witness path A → B. -/
def pathAB : PathConfig := ⟨"A", "B", 1 / 2⟩

/-- The witness path B → A. -/
def pathBA : PathConfig := ⟨"B", "A", 1 / 2⟩

/-- Witness for C2: the two-construct cycle A → B, B → A with both
constructs declared makes `simulate_structural_latents` raise the cycle
error. -/
theorem simulate_cycle_error_witness :
    simulate_structural_latents numTest (fun _ => entZero)
      ([consA, consB].map PyVal.construct) {} ⟨[pathAB, pathBA], []⟩ entZero
      = .error cycleMsg := by
  apply simulate_structural_latents_cycle_error
  · intro p hp
    rcases List.mem_cons.mp hp with rfl | hp2
    · exact ⟨⟨consA, by simp, rfl⟩, ⟨consB, by simp, rfl⟩⟩
    · rcases List.mem_cons.mp hp2 with rfl | hp3
      · exact ⟨⟨consB, by simp, rfl⟩, ⟨consA, by simp, rfl⟩⟩
      · simp at hp3
  · refine ⟨"A", ["B"], ?_, ?_⟩
    · exact List.Chain.cons ⟨pathAB, by simp, rfl, rfl⟩ List.Chain.nil
    · exact ⟨pathBA, by simp, rfl, rfl⟩

/-! ## core/generator.py -/

/-- Insertion step of the sort underlying the quantile computation. -/
def insertSorted (x : ℚ) : List ℚ → List ℚ
  | [] => [x]
  | y :: ys => if x ≤ y then x :: y :: ys else y :: insertSorted x ys

/-- Ascending sort (model of sorting inside `np.quantile`). -/
def sortQ (xs : List ℚ) : List ℚ := xs.foldr insertSorted []

/-- `np.quantile(xs, p)` with the default linear interpolation:
`h = p*(n-1)`, interpolate between the floor-adjacent order statistics. -/
def quantileQ (xs : List ℚ) (p : ℚ) : ℚ :=
  let s := sortQ xs
  let n := s.length
  if n = 0 then 0 else
  let h : ℚ := p * ((n : ℚ) - 1)
  let i : Int := ⌊h⌋
  let g : ℚ := h - (i : ℚ)
  let i0 : Nat := i.toNat
  (s.getD i0 0) + g * ((s.getD (i0 + 1) (s.getD i0 0)) - s.getD i0 0)

/-- The candidate bin edges of `pd.qcut(raw, q)` -- the quantiles at
`0, 1/q, ..., 1` -- with duplicate edges dropped
(`duplicates="drop"`). -/
def qcutEdges (raw : List ℚ) (q : Nat) : List ℚ :=
  ((List.range (q + 1)).map (fun k => quantileQ raw ((k : ℚ) / (q : ℚ)))).dedup

/-- `pd.qcut(raw, q, labels=False, duplicates="drop")`: `none` models the
`ValueError` on degenerate binning (fewer than two distinct edges, e.g.
constant input), which the caller catches; otherwise the 0-based bin
index per value: intervals `(e_i, e_{i+1}]` with the lowest edge
included, i.e. `max 0 (count of edges strictly below x, minus 1)`. -/
def qcut (raw : List ℚ) (q : Nat) : Option (List Int) :=
  let ue := qcutEdges raw q
  if ue.length < 2 then none
  else some (raw.map (fun x =>
    max 0 ((ue.countP (fun e => decide (e < x)) : Int) - 1)))

/-- `pd.Series.rank(method="average")` at one value. -/
def rankAvg (xs : List ℚ) (x : ℚ) : ℚ :=
  (xs.countP (fun y => decide (y < x)) : ℚ) +
  ((xs.countP (fun y => decide (y = x)) : ℚ) + 1) / 2

/-- The fallback binning of `_generate_items_for_construct`: fractional
ranks scaled into `[0, n_cat)`, floored and clipped to `[0, n_cat-1]`. -/
def rankFallbackCats (raw : List ℚ) (n_cat : Nat) : List Int :=
  raw.map (fun x =>
    let u := (rankAvg raw x - 1 / 2) / ((raw.length : ℚ))
    min ((n_cat : Int) - 1) (max 0 ⌊u * (n_cat : ℚ)⌋))

/-- `_sample_loadings`: uniform draws in the clamped loading range,
shifted so their mean matches the target mean, then clipped into
`[0.10, 0.99]`. -/
def sample_loadings (num : NumModel) (c : ConstructConfig) (rng : RNG) :
    List ℚ × RNG :=
  let low := max (1 / 10) (min c.target_loading_min c.target_loading_max)
  let high := min (99 / 100) (max c.target_loading_min c.target_loading_max)
  let (draws, rng2) := rng.draw c.n_items
  let loadings := draws.map (num.uniformT low high)
  let shift := c.target_loading_mean - meanQ loadings
  (loadings.map (fun lam => clipQ (lam + shift) (1 / 10) (99 / 100)), rng2)

/-- Python `%02d` formatting of the 1-based item index. -/
def pad2 (n : Nat) : String := if n < 10 then "0" ++ toString n else toString n

/-- One item column before reverse coding: clip the loading into
`[0.10, 0.95]`, noise variance `max(1e-6, 1 - lam^2)`,
`raw = lam*latent + eps`, quantile binning (rank fallback on the
`ValueError`), shift by `likert_min`, cast to int and clip into the
Likert range. -/
def itemColumn (num : NumModel) (sample : SampleConfig) (latent : List ℚ)
    (lam0 : ℚ) (rng : RNG) : List Int × RNG :=
  let lik_min := sample.likert_min
  let lik_max := sample.likert_max
  let n_cat : Nat := (lik_max - lik_min + 1).toNat
  let lam := clipQ lam0 (1 / 10) (95 / 100)
  let error_var := max (1 / 1000000) (1 - lam ^ 2)
  let error_sd := num.sqrtQ error_var
  let (draws, rng2) := rng.draw sample.n_respondents
  let eps := draws.map (num.normalT 0 error_sd)
  let raw := List.zipWith (fun lv e => lam * lv + e) latent eps
  let cats := match qcut raw n_cat with
    | some cs => cs
    | none => rankFallbackCats raw n_cat
  (cats.map (fun cat => min lik_max (max lik_min (cat + lik_min))), rng2)

/-- Reverse-code the trailing `n_reverse` columns (`i` is the index of
the head column; the condition `k - n_reverse <= index` selects the last
`n_reverse` of the `k` columns).  The source selects them by column name;
the names `name_01, name_02, ...` are pairwise distinct, so selecting by
position is the same operation. -/
def applyReverseAux (lik_min lik_max : Int) (k n_reverse : Nat) :
    Nat → List (String × List Int) → List (String × List Int)
  | _, [] => []
  | i, col :: cols =>
    (if k - n_reverse ≤ i then
      (col.1, col.2.map (fun v => lik_min + lik_max - v))
    else col) :: applyReverseAux lik_min lik_max k n_reverse (i + 1) cols

/-- Reverse-code the trailing `n_reverse` columns. -/
def applyReverse (cols : List (String × List Int)) (n_reverse : Nat)
    (lik_min lik_max : Int) : List (String × List Int) :=
  applyReverseAux lik_min lik_max cols.length n_reverse 0 cols

/-- The item-column fold of `_generate_items_for_construct` (everything
before reverse coding): produce the named columns in order, one
sequential noise draw per item. -/
def rawItemCols (num : NumModel) (c : ConstructConfig) (latent : List ℚ)
    (sample : SampleConfig) (rng : RNG) : List (String × List Int) × RNG :=
  (sample_loadings num c rng).1.enum.foldl
    (fun (acc : List (String × List Int) × RNG) p =>
      (acc.1 ++ [(c.name ++ "_" ++ pad2 (p.1 + 1),
        (itemColumn num sample latent p.2 acc.2).1)],
       (itemColumn num sample latent p.2 acc.2).2))
    ([], (sample_loadings num c rng).2)

/-- `_generate_items_for_construct`: sample loadings, produce the item
columns, then reverse-code the last `max(0, min(reverse_items, n_items))`
columns. -/
def generate_items_for_construct (num : NumModel) (c : ConstructConfig)
    (latent : List ℚ) (sample : SampleConfig) (rng : RNG) :
    List (String × List Int) × RNG :=
  let res := rawItemCols num c latent sample rng
  let n_reverse : Nat := (max 0 (min c.reverse_items (c.n_items : Int))).toNat
  (applyReverse res.1 n_reverse sample.likert_min sample.likert_max, res.2)

/-! ## Claim C3 -/

/-- Every cell of one (un-reversed) item column lies in the Likert range:
whichever binning branch produced the category, the final
`clip(likert_min, likert_max)` bounds it. -/
lemma itemColumn_mem_range (num : NumModel) (sample : SampleConfig)
    (latent : List ℚ) (lam0 : ℚ) (rng : RNG)
    (h : sample.likert_min ≤ sample.likert_max) :
    ∀ v ∈ (itemColumn num sample latent lam0 rng).1,
      sample.likert_min ≤ v ∧ v ≤ sample.likert_max := by
  intro v hv
  simp only [itemColumn] at hv
  obtain ⟨cat, _, rfl⟩ := List.mem_map.mp hv
  exact ⟨le_min h (le_max_left _ _), min_le_left _ _⟩

/-- Reverse coding preserves the Likert range. -/
lemma applyReverseAux_range (lik_min lik_max : Int) (k n : Nat) :
    ∀ (cols : List (String × List Int)) (i : Nat),
      (∀ col ∈ cols, ∀ v ∈ col.2, lik_min ≤ v ∧ v ≤ lik_max) →
      ∀ col ∈ applyReverseAux lik_min lik_max k n i cols,
        ∀ v ∈ col.2, lik_min ≤ v ∧ v ≤ lik_max := by
  intro cols
  induction cols with
  | nil => intro i _ col hcol; simp [applyReverseAux] at hcol
  | cons c0 cs ih =>
    intro i hall col hcol
    simp only [applyReverseAux] at hcol
    rcases List.mem_cons.mp hcol with h | h
    · subst h
      split
      · intro v hv
        obtain ⟨w, hw, rfl⟩ := List.mem_map.mp hv
        have := hall c0 (List.mem_cons_self c0 cs) w hw
        omega
      · exact hall c0 (List.mem_cons_self c0 cs)
    · exact ih (i + 1) (fun col2 h2 => hall col2 (List.mem_cons_of_mem c0 h2)) col h

/-- The item-column fold only appends columns whose cells are in
range. -/
lemma itemsFold_range (num : NumModel) (sample : SampleConfig)
    (latent : List ℚ) (c : ConstructConfig)
    (h : sample.likert_min ≤ sample.likert_max) :
    ∀ (ps : List (Nat × ℚ)) (acc : List (String × List Int) × RNG),
      (∀ col ∈ acc.1, ∀ v ∈ col.2, sample.likert_min ≤ v ∧ v ≤ sample.likert_max) →
      ∀ col ∈ (ps.foldl
        (fun (acc : List (String × List Int) × RNG) p =>
          (acc.1 ++ [(c.name ++ "_" ++ pad2 (p.1 + 1),
            (itemColumn num sample latent p.2 acc.2).1)],
           (itemColumn num sample latent p.2 acc.2).2)) acc).1,
        ∀ v ∈ col.2, sample.likert_min ≤ v ∧ v ≤ sample.likert_max := by
  intro ps
  induction ps with
  | nil => intro acc hacc col hcol; exact hacc col hcol
  | cons p ps ih =>
    intro acc hacc col hcol
    refine ih _ ?_ col hcol
    intro col2 h2
    rcases List.mem_append.mp h2 with h2 | h2
    · exact hacc col2 h2
    · simp only [List.mem_singleton] at h2
      subst h2
      exact itemColumn_mem_range num sample latent p.2 acc.2 h

/-- C3: for every construct configuration, latent column and generator
state, with a valid Likert range (`likert_min <= likert_max`), every cell
of every indicator column produced by `_generate_items_for_construct`
lies in `[likert_min, likert_max]` -- reversed and non-reversed items,
quantile branch and rank fallback alike.  Cells are integers by type
(`List Int`), so no cell is `NaN`. -/
theorem generate_items_in_likert_range (num : NumModel) (c : ConstructConfig)
    (latent : List ℚ) (sample : SampleConfig) (rng : RNG)
    (h : sample.likert_min ≤ sample.likert_max) :
    ∀ col ∈ (generate_items_for_construct num c latent sample rng).1,
      ∀ v ∈ col.2, sample.likert_min ≤ v ∧ v ≤ sample.likert_max := by
  intro col hcol
  unfold generate_items_for_construct rawItemCols at hcol
  refine applyReverseAux_range sample.likert_min sample.likert_max _ _ _ 0 ?_ col hcol
  refine itemsFold_range num sample latent c h _ _ ?_
  intro col2 h2
  simp at h2

/-- Witness for C3: the hypothesis holds at the default Likert range
1..5, e.g. with a 2-item construct on a length-3 latent column. -/
theorem generate_items_in_likert_range_witness :
    (1 : Int) ≤ 5 ∧
    ∀ col ∈ (generate_items_for_construct numTest { name := "PE", n_items := 2 }
        [0, 1, 2] {} ⟨entZero, 0⟩).1,
      ∀ v ∈ col.2, (1 : Int) ≤ v ∧ v ≤ 5 :=
  ⟨by norm_num,
   generate_items_in_likert_range numTest { name := "PE", n_items := 2 }
     [0, 1, 2] {} ⟨entZero, 0⟩ (by norm_num)⟩

/-! ## Claim C9 -/

/-- Reverse coding keeps the column count. -/
lemma applyReverseAux_length (lik_min lik_max : Int) (k n : Nat) :
    ∀ (cols : List (String × List Int)) (i : Nat),
      (applyReverseAux lik_min lik_max k n i cols).length = cols.length := by
  intro cols
  induction cols with
  | nil => intro i; rfl
  | cons c0 cs ih =>
    intro i
    simp only [applyReverseAux, List.length_cons, ih]

/-- Column `j` after reverse coding: flipped exactly when
`k - n <= i + j` (with `i` the index of the first column). -/
lemma applyReverseAux_getD (lik_min lik_max : Int) (k n : Nat)
    (d : String × List Int) :
    ∀ (cols : List (String × List Int)) (i j : Nat), j < cols.length →
      (applyReverseAux lik_min lik_max k n i cols).getD j d =
        if k - n ≤ i + j then
          ((cols.getD j d).1,
            (cols.getD j d).2.map (fun v => lik_min + lik_max - v))
        else cols.getD j d := by
  intro cols
  induction cols with
  | nil => intro i j hj; simp at hj
  | cons c0 cs ih =>
    intro i j hj
    cases j with
    | zero =>
      simp only [applyReverseAux, List.getD_cons_zero, Nat.add_zero]
    | succ j =>
      simp only [applyReverseAux, List.getD_cons_succ]
      rw [ih (i + 1) j (by simpa using hj)]
      rw [show i + 1 + j = i + (j + 1) by omega]

/-- The item fold appends one column per loading. -/
lemma itemsFold_length (num : NumModel) (sample : SampleConfig)
    (latent : List ℚ) (c : ConstructConfig) :
    ∀ (ps : List (Nat × ℚ)) (acc : List (String × List Int) × RNG),
      ((ps.foldl
        (fun (acc : List (String × List Int) × RNG) p =>
          (acc.1 ++ [(c.name ++ "_" ++ pad2 (p.1 + 1),
            (itemColumn num sample latent p.2 acc.2).1)],
           (itemColumn num sample latent p.2 acc.2).2)) acc).1).length
        = acc.1.length + ps.length := by
  intro ps
  induction ps with
  | nil => intro acc; simp
  | cons p ps ih =>
    intro acc
    rw [List.foldl_cons, ih]
    simp only [List.length_append, List.length_cons, List.length_nil]
    omega

/-- `_sample_loadings` returns one loading per item. -/
lemma sample_loadings_length (num : NumModel) (c : ConstructConfig) (rng : RNG) :
    ((sample_loadings num c rng).1).length = c.n_items := by
  simp [sample_loadings, RNG.draw]

/-- The pre-reverse columns are one per item. -/
lemma rawItemCols_length (num : NumModel) (c : ConstructConfig)
    (latent : List ℚ) (sample : SampleConfig) (rng : RNG) :
    ((rawItemCols num c latent sample rng).1).length = c.n_items := by
  unfold rawItemCols
  rw [itemsFold_length]
  simp [sample_loadings_length]

/-- The pre-reverse columns do not depend on `reverse_items`. -/
lemma rawItemCols_reverse_irrelevant (num : NumModel) (c : ConstructConfig)
    (latent : List ℚ) (sample : SampleConfig) (rng : RNG) :
    rawItemCols num { c with reverse_items := 0 } latent sample rng =
      rawItemCols num c latent sample rng := rfl

/-- C9: for `0 < reverse_items <= n_items`, exactly the trailing
`reverse_items` indicator columns are reverse-coded -- each cell mapped
through `likert_min + likert_max - value` (column name unchanged) -- and
the leading `n_items - reverse_items` columns are identical to the output
of the same construct with `reverse_items = 0`. -/
theorem reverse_codes_trailing_items (num : NumModel) (c : ConstructConfig)
    (latent : List ℚ) (sample : SampleConfig) (rng : RNG)
    (h1 : 0 < c.reverse_items) (h2 : c.reverse_items ≤ (c.n_items : Int)) :
    (generate_items_for_construct num c latent sample rng).1.length = c.n_items ∧
    (∀ j, j < c.n_items - c.reverse_items.toNat →
      (generate_items_for_construct num c latent sample rng).1.getD j ("", []) =
      (generate_items_for_construct num { c with reverse_items := 0 }
        latent sample rng).1.getD j ("", [])) ∧
    (∀ j, c.n_items - c.reverse_items.toNat ≤ j → j < c.n_items →
      (generate_items_for_construct num c latent sample rng).1.getD j ("", []) =
        (((generate_items_for_construct num { c with reverse_items := 0 }
            latent sample rng).1.getD j ("", [])).1,
         ((generate_items_for_construct num { c with reverse_items := 0 }
            latent sample rng).1.getD j ("", [])).2.map
           (fun v => sample.likert_min + sample.likert_max - v))) := by
  have hrev : (max 0 (min c.reverse_items (c.n_items : Int))).toNat
      = c.reverse_items.toNat := by
    rw [min_eq_left h2, max_eq_right (le_of_lt h1)]
  have hrev0 : ({ c with reverse_items := 0 } : ConstructConfig).reverse_items = 0 := rfl
  have hlen := rawItemCols_length num c latent sample rng
  have hrle : c.reverse_items.toNat ≤ c.n_items := by omega
  unfold generate_items_for_construct
  rw [rawItemCols_reverse_irrelevant]
  simp only [hrev, hrev0]
  have hn0 : (max 0 (min (0 : Int) (c.n_items : Int))).toNat = 0 := by
    rw [min_eq_left (by positivity), max_self]
    rfl
  rw [hn0]
  unfold applyReverse
  refine ⟨?_, ?_, ?_⟩
  · rw [applyReverseAux_length]
    exact hlen
  · intro j hj
    rw [applyReverseAux_getD _ _ _ _ _ _ 0 j (by omega),
      applyReverseAux_getD _ _ _ _ _ _ 0 j (by omega)]
    rw [if_neg (by omega), if_neg (by omega)]
  · intro j hj1 hj2
    rw [applyReverseAux_getD _ _ _ _ _ _ 0 j (by omega),
      applyReverseAux_getD _ _ _ _ _ _ 0 j (by omega)]
    rw [if_pos (by omega), if_neg (by omega)]

/-- The witness construct: 2 items, the last one reverse-coded. -/
def consRev : ConstructConfig := { name := "S", n_items := 2, reverse_items := 1 }

/-- Witness for C9 at a concrete 2-item construct with one reversed
item. -/
theorem reverse_codes_trailing_items_witness :
    (generate_items_for_construct numTest consRev [0, 1] {} ⟨entZero, 0⟩).1.length
        = consRev.n_items ∧
    (∀ j, j < consRev.n_items - consRev.reverse_items.toNat →
      (generate_items_for_construct numTest consRev [0, 1] {} ⟨entZero, 0⟩).1.getD j ("", []) =
      (generate_items_for_construct numTest { consRev with reverse_items := 0 }
        [0, 1] {} ⟨entZero, 0⟩).1.getD j ("", [])) ∧
    (∀ j, consRev.n_items - consRev.reverse_items.toNat ≤ j → j < consRev.n_items →
      (generate_items_for_construct numTest consRev [0, 1] {} ⟨entZero, 0⟩).1.getD j ("", []) =
        (((generate_items_for_construct numTest { consRev with reverse_items := 0 }
            [0, 1] {} ⟨entZero, 0⟩).1.getD j ("", [])).1,
         ((generate_items_for_construct numTest { consRev with reverse_items := 0 }
            [0, 1] {} ⟨entZero, 0⟩).1.getD j ("", [])).2.map
           (fun v => ({} : SampleConfig).likert_min + ({} : SampleConfig).likert_max - v))) :=
  reverse_codes_trailing_items numTest consRev [0, 1] {} ⟨entZero, 0⟩
    (by norm_num [consRev]) (by norm_num [consRev])

/-! ## generate_dataset (core/generator.py) -/

/-- A generated table column: demographic (strings) or item (integers). -/
inductive Col where
  | strCol (xs : List String)
  | intCol (xs : List Int)

/-- A DataFrame of named columns. -/
abbrev Table := List (String × Col)

/-- Inverse-CDF categorical pick: walk the category/weight pairs,
subtracting weights from the unit draw. -/
def pickCatAux : List (String × ℚ) → ℚ → String → String
  | [], _, dflt => dflt
  | (c, p) :: rest, u, dflt => if u < p then c else pickCatAux rest (u - p) dflt

/-- `rng.choice(cats, n, p=probs)` per draw. -/
def pickCat (cats : List String) (probs : List ℚ) (u : ℚ) : String :=
  pickCatAux (cats.zip probs) u (cats.getLastD "")

/-- `_generate_demographics`: four categorical columns from a fresh
generator seeded with `(random_seed or 0) + 777` -- deterministic given
the run seed, no entropy involved.  Empty when demographics are off. -/
def generate_demographics (seedStream : Int → Strm) (cfg : ModelConfig) : Table :=
  if ¬ cfg.demographics.add_demographics then [] else
  let sample := cfg.sample
  let rng0 : RNG := ⟨seedStream ((sample.random_seed.getD 0) + 777), 0⟩
  let n := sample.n_respondents
  let (d1, rng1) := rng0.draw n
  let gender := d1.map (pickCat ["Male", "Female", "Other"]
    [55 / 100, 43 / 100, 2 / 100])
  let (d2, rng2) := rng1.draw n
  let age := d2.map (pickCat ["18-20", "21-23", "24-26", "27+"]
    [35 / 100, 40 / 100, 20 / 100, 5 / 100])
  let (d3, rng3) := rng2.draw n
  let income := d3.map (pickCat ["<15k", "15-30k", "30-50k", ">50k"]
    [40 / 100, 30 / 100, 20 / 100, 10 / 100])
  let (d4, _) := rng3.draw n
  let level := d4.map (pickCat ["1st year", "2nd year", "3rd year", "4th year", "Postgrad"]
    [20 / 100, 25 / 100, 25 / 100, 20 / 100, 10 / 100])
  [("gender", Col.strCol gender), ("age_group", Col.strCol age),
   ("income_band", Col.strCol income), ("study_level", Col.strCol level)]

/-- The keys of the dict `{c.name: c for c in constructs}` in insertion
order (duplicate names collapse, as in a Python dict). -/
def dictKeys (names : List String) : List String := names.foldl addNode []

/-- The empty-constructs error of `generate_dataset`. -/
def emptyConstructsMsg : String :=
  "ModelConfig.constructs is empty. Define at least one construct."

/-- `generate_dataset`: the full pipeline.  `model_cfg.validate()` is
wrapped in `try/except Exception: pass`, so validation never aborts the
run.  The constructs list is re-keyed into a dict and handed to
`simulate_structural_latents` through `dataclasses.replace`; iterating
that dict yields its string keys (`PyVal.str`), hence the simulation
stage receives strings where it expects construct objects. -/
def generate_dataset (num : NumModel) (seedStream : Int → Strm)
    (cfg : ModelConfig) (ent : Strm) : Except String (Table × Table) :=
  let sample := cfg.sample
  let constructs := cfg.constructs
  let rng0 := default_rng seedStream sample.random_seed ent
  if constructs.isEmpty then .error emptyConstructsMsg else
  match simulate_structural_latents num seedStream
      ((dictKeys (constructs.map (fun c => c.name))).map PyVal.str)
      sample cfg.structural ent with
  | .error e => .error e
  | .ok latent_df =>
    -- from here on: unreachable for a nonempty constructs list, kept for
    -- structural fidelity with the source
    if constructs.any (fun c => !(latent_df.any (fun kv => decide (kv.1 = c.name)))) then
      .error "Structural latent generator missing constructs"
    else
      let res := constructs.foldl
        (fun (acc : List (String × List Int) × RNG) c =>
          if c.n_items = 0 then acc else
          match lookupCol latent_df c.name with
          | none => acc
          | some latent =>
            let r := generate_items_for_construct num c latent sample acc.2
            (acc.1 ++ r.1, r.2))
        ([], rng0)
      if res.1.isEmpty then
        .error "No constructs with n_items > 0 -- nothing to generate."
      else
        let items_df : Table := res.1.map (fun kv => (kv.1, Col.intCol kv.2))
        let demo_df := generate_demographics seedStream cfg
        let full_df := demo_df ++ items_df
        .ok (full_df, items_df)

/-- Iterating the re-keyed constructs dict hands string keys to the
`cons_map` comprehension, whose attribute access raises immediately. -/
lemma simulate_dyn_str_error (num : NumModel) (seedStream : Int → Strm)
    (keys : List String) (hk : keys ≠ []) (sample : SampleConfig)
    (structural : StructuralConfig) (ent : Strm) :
    simulate_structural_latents num seedStream (keys.map PyVal.str)
      sample structural ent = .error attrErrMsg := by
  cases keys with
  | nil => exact absurd rfl hk
  | cons k ks =>
    have hmapm : ((PyVal.str k :: ks.map PyVal.str).mapM pyNamePair
        : Except String (List (String × ConstructConfig))) = .error attrErrMsg := by
      rw [List.mapM_cons]
      rfl
    simp only [simulate_structural_latents, List.map_cons, hmapm]

/-! ## Claims C1 and C5 -/

/-- The end-to-end scenario: PE (4 items), EE (4 items), BI (3 items),
paths PE→BI (β = 0.5) and EE→BI (β = 0.4), R² target 0.50 for BI,
N = 500, Likert 1..5, seed 123, demographics enabled. -/
def c1Config : ModelConfig :=
  { project_name := "Pipeline"
    researcher_name := "Tester"
    constructs := [{ name := "PE", n_items := 4 }, { name := "EE", n_items := 4 },
      { name := "BI", n_items := 3 }]
    sample :=
      { n_respondents := 500, likert_min := 1, likert_max := 5, random_seed := some 123 }
    demographics := { add_demographics := true }
    structural := ⟨[⟨"PE", "BI", 1 / 2⟩, ⟨"EE", "BI", 2 / 5⟩], [("BI", 1 / 2)]⟩ }

/-- C1 fails on the code: on the end-to-end scenario configuration
`generate_dataset` RAISES -- it re-keys the constructs into a dict,
`simulate_structural_latents` iterates that dict obtaining the string
keys, and `.name` on a string raises `AttributeError` -- instead of
returning the 500-row, 11-item-column table that the claim (and the
repository test `test_full_pipeline`) promises.  This holds for every
generator model, seed stream and entropy. -/
theorem generate_dataset_c1_scenario_raises (num : NumModel)
    (seedStream : Int → Strm) (ent : Strm) :
    generate_dataset num seedStream c1Config ent = .error attrErrMsg := by
  have hkeys : dictKeys (c1Config.constructs.map (fun c => c.name)) ≠ [] := by
    intro he
    have : "PE" ∈ dictKeys (c1Config.constructs.map (fun c => c.name)) := by
      unfold dictKeys
      refine (mem_foldl_addNode _ _ _).mpr (Or.inr ?_)
      simp [c1Config]
    rw [he] at this
    simp at this
  have hsim := simulate_dyn_str_error num seedStream
    (dictKeys (c1Config.constructs.map (fun c => c.name))) hkeys
    c1Config.sample c1Config.structural ent
  have hne : c1Config.constructs.isEmpty = false := rfl
  simp only [generate_dataset, hne, Bool.false_eq_true, if_false, hsim]

/-- C5 fails on the code for the same reason: for EVERY configuration
with at least one construct, `generate_dataset` raises `AttributeError`
before any table is built, so no run returns output and the
"bit-identical returned tables" contract has nothing to return.  (The
error itself is deterministic: it does not depend on the entropy
argument.) -/
theorem generate_dataset_never_returns (num : NumModel)
    (seedStream : Int → Strm) (cfg : ModelConfig) (ent : Strm)
    (h : cfg.constructs ≠ []) :
    generate_dataset num seedStream cfg ent = .error attrErrMsg := by
  obtain ⟨c0, cs, hcons⟩ : ∃ c0 cs, cfg.constructs = c0 :: cs := by
    cases hc : cfg.constructs with
    | nil => exact absurd hc h
    | cons c0 cs => exact ⟨c0, cs, rfl⟩
  have hkeys : dictKeys (cfg.constructs.map (fun c => c.name)) ≠ [] := by
    intro he
    have : c0.name ∈ dictKeys (cfg.constructs.map (fun c => c.name)) := by
      unfold dictKeys
      refine (mem_foldl_addNode _ _ _).mpr (Or.inr ?_)
      rw [hcons]
      simp
    rw [he] at this
    simp at this
  have hsim := simulate_dyn_str_error num seedStream
    (dictKeys (cfg.constructs.map (fun c => c.name))) hkeys
    cfg.sample cfg.structural ent
  have hne : cfg.constructs.isEmpty = false := by
    rw [hcons]
    rfl
  simp only [generate_dataset, hne, Bool.false_eq_true, if_false, hsim]

/-- A minimal configuration with one construct. -/
def soloConfig : ModelConfig :=
  { project_name := "Solo"
    researcher_name := "T"
    constructs := [{ name := "PE", n_items := 1 }]
    sample := {}
    demographics := {}
    structural := ⟨[], []⟩ }

/-- Witness for the C5 theorem at a concrete one-construct
configuration. -/
theorem generate_dataset_never_returns_witness :
    generate_dataset numTest (fun _ => entZero) soloConfig entZero
      = .error attrErrMsg :=
  generate_dataset_never_returns numTest (fun _ => entZero) soloConfig entZero
    (by simp [soloConfig])
